import Mathlib

/-!
# Verification of the piece-store core (`store/piece_store.go`)

A shallow embedding of the piece-assembly and piece-reading engine:
block descriptors (`RawBlock`, `ItemBlock`, `ItemBlockMetadata`), the plan
builder (`newPieceReader` with its sanitize loop and run-folding loop), the
stateful reader (`read`, `readAll`), seeking (`makeCopy` with the binary
searches), and `close`.

Modelling conventions:
* bytes are `Nat`s, byte strings are `List Nat`;
* machine `uint64` arithmetic is modelled by `Nat`; every subtraction the
  verified statements exercise is performed only where the source guarantees
  no underflow, except in the binary-search comparator, where the Go source
  computes `int(a - b)` on `uint64`s — for all values below `2^63` that equals
  the signed difference, so it is modelled as subtraction on `Int`;
* a Go `io.ReadCloser` produced by a source handler is modelled by the list
  of bytes it has left to deliver; a read of `k` bytes takes `min(k, left)`;
* a Go `nil`-pointer (`*model.Item`, `*model.Source`, the open reader) is an
  `Option`; code paths where Go would panic (nil dereference, index out of
  range) are modelled by explicit `panicked` / `none` outcomes;
* third-party helpers used by the source are reproduced where their byte-level
  behaviour matters: `varint.ToUvarint` (unsigned LEB128) and
  `slices.BinarySearchFunc` / `sort.Search`; `cid.MustParse(x).Bytes()` is
  opaque, so the model's `CarBlock` carries the identifier bytes directly;
* calls into the environment (opening a source stream, reading from it,
  closing it, resolving a handler) are recorded as explicit events/traces so
  that statements about laziness and resource usage can be made.
-/

namespace PieceStore

/-- A byte string. -/
abbrev Bytes := List Nat

/-- Observable interactions of a reader with its backing source streams. -/
inductive Event where
  | openStream (path : String) (offset length : Nat)
  | streamRead (requested posBefore space : Nat)
  | closeStream
deriving DecidableEq, Repr

/-- `model.Item` (fields the core uses: ID, Path, Size). -/
structure Item where
  id : Nat
  path : String
  size : Nat
deriving DecidableEq, Repr, Inhabited

/-- `model.Source` (opaque to the core; only passed to the resolver). -/
structure Source where
  id : Nat
deriving DecidableEq, Repr, Inhabited

/-- `datasource.Handler`: a capability to read byte ranges of items.
The handler is modelled by the content it serves per item path. -/
structure Handler where
  content : String → Bytes

instance : Inhabited Handler := ⟨⟨fun _ => []⟩⟩

/-- `Handler.Read(ctx, path, offset, length)` returns a forward-only stream
delivering `length` bytes of the item starting at `offset` (fewer if the
item is shorter). -/
def Handler.read (h : Handler) (path : String) (offset length : Nat) : Bytes :=
  ((h.content path).drop offset).take length

/-- `datasource.HandlerResolver`. -/
structure HandlerResolver where
  getHandler : Source → Except String Handler

/-- `model.CarBlock` (fields the core uses). `cid` holds the bytes that
`cid.MustParse(CID).Bytes()` would produce. -/
structure CarBlock where
  carOffset : Nat
  carBlockLength : Nat
  varint : Nat
  cid : Bytes
  rawBlock : Option Bytes
  item : Option Item
  source : Option Source
  itemOffset : Nat
  blockLength : Nat
deriving Inhabited

/-- `model.Car` (fields the core uses: Header, FileSize). -/
structure Car where
  header : Bytes
  fileSize : Nat
deriving Inhabited

/-- Fueled worker for `toUvarint` (structural recursion so that the kernel
can evaluate it; `n / 128 < n` for `128 ≤ n`, so fuel `n + 1` is enough). -/
def toUvarintAux : Nat → Nat → Bytes
  | 0, n => [n]
  | fuel + 1, n => if n < 128 then [n] else (n % 128 + 128) :: toUvarintAux fuel (n / 128)

/-- `varint.ToUvarint`: unsigned LEB128 encoding, least significant group
first, high bit set on every byte except the last. -/
def toUvarint (n : Nat) : Bytes :=
  toUvarintAux (n + 1) n

/-- `ItemBlockMetadata`. -/
structure ItemBlockMetadata where
  pieceOffset : Nat
  varint : Bytes
  cid : Bytes
  itemOffset : Nat
  itemLength : Nat
deriving DecidableEq, Repr, Inhabited

def ItemBlockMetadata.cidOffset (m : ItemBlockMetadata) : Nat :=
  m.pieceOffset + m.varint.length

def ItemBlockMetadata.blockOffset (m : ItemBlockMetadata) : Nat :=
  m.pieceOffset + m.varint.length + m.cid.length

def ItemBlockMetadata.endOffset (m : ItemBlockMetadata) : Nat :=
  m.pieceOffset + m.varint.length + m.cid.length + m.itemLength

def ItemBlockMetadata.length (m : ItemBlockMetadata) : Nat :=
  m.varint.length + m.cid.length + m.itemLength

/-- `RawBlock`. -/
structure RawBlock where
  pieceOffset : Nat
  varint : Bytes
  cid : Bytes
  blockData : Bytes
deriving DecidableEq, Repr, Inhabited

def RawBlock.cidOffset (r : RawBlock) : Nat :=
  r.pieceOffset + r.varint.length

def RawBlock.blockOffset (r : RawBlock) : Nat :=
  r.pieceOffset + r.varint.length + r.cid.length

def RawBlock.endOffset (r : RawBlock) : Nat :=
  r.pieceOffset + r.varint.length + r.cid.length + r.blockData.length

def RawBlock.length (r : RawBlock) : Nat :=
  r.varint.length + r.cid.length + r.blockData.length

/-- `ItemBlock`. The Go `Item *model.Item` pointer may be nil, hence `Option`. -/
structure ItemBlock where
  pieceOffset : Nat
  sourceHandler : Handler
  item : Option Item
  meta : List ItemBlockMetadata

/-- `PieceBlock`: the `RawBlock | ItemBlock` sum. -/
inductive PieceBlock where
  | raw (b : RawBlock)
  | item (b : ItemBlock)

instance : Inhabited PieceBlock := ⟨.raw default⟩

def PieceBlock.getPieceOffset : PieceBlock → Nat
  | .raw b => b.pieceOffset
  | .item b => b.pieceOffset

/-- `PieceReader` state. `reader` is the optionally-open source stream,
modelled by the bytes it has left to deliver. -/
structure PieceReader where
  blocks : List PieceBlock
  reader : Option Bytes
  pos : Nat
  blockID : Nat
  innerBlockID : Nat
  blockOffset : Nat
  header : Bytes

/-- The source file's own `min` on two numbers. -/
def minNat (i i2 : Nat) : Nat :=
  if i < i2 then i else i2

/-- Cursor threaded through the copy steps of one `Read` call:
current piece position plus what has been written to `p` so far. -/
structure CopyState where
  pos : Nat
  out : Bytes
deriving Repr

/-- Models the Go pattern
`if pr.pos < limit { copied := copy(p[n:], src[pr.pos-base:]); pr.pos += copied; n += copied }`
where `limit = base + len(src)` and `p` has `plen - n` free bytes. -/
def copyFrom (plen : Nat) (src : Bytes) (base : Nat) (s : CopyState) : CopyState :=
  if s.pos < base + src.length then
    let c := (src.drop (s.pos - base)).take (plen - s.out.length)
    { pos := s.pos + c.length, out := s.out ++ c }
  else s

inductive ReadStatus where
  | ok
  | eof
  | panicked
deriving DecidableEq, Repr

/-- Result of one `Read` call: bytes written, successor state, environment
events, and whether the call returned normally, returned `io.EOF`, or hit a
Go runtime panic. -/
structure ReadResult where
  out : Bytes
  state : PieceReader
  events : List Event
  status : ReadStatus

/-- The `RawBlock` branch of `PieceReader.Read` (three guarded copies, each
followed by the `if n == len(p) { return }` check, then unconditional block
advance). -/
def readRaw (pr : PieceReader) (plen : Nat) (rb : RawBlock) (acc : Bytes) : ReadResult :=
  let s0 : CopyState := ⟨pr.pos, acc⟩
  let s1 := copyFrom plen rb.varint rb.pieceOffset s0
  if s0.pos < rb.cidOffset ∧ s1.out.length = plen then
    ⟨s1.out, { pr with pos := s1.pos }, [], .ok⟩
  else
    let s2 := copyFrom plen rb.cid rb.cidOffset s1
    if s1.pos < rb.blockOffset ∧ s2.out.length = plen then
      ⟨s2.out, { pr with pos := s2.pos }, [], .ok⟩
    else
      let s3 := copyFrom plen rb.blockData rb.blockOffset s2
      if s2.pos < rb.endOffset ∧ s3.out.length = plen then
        ⟨s3.out, { pr with pos := s3.pos }, [], .ok⟩
      else
        ⟨s3.out, { pr with pos := s3.pos, blockID := pr.blockID + 1, innerBlockID := 0 },
          [], .ok⟩

/-- The tail of the `ItemBlock` branch after the stream is known open:
two guarded copies for varint and cid, then the bounded stream read with the
cursor-advance and stream-release logic. -/
def readItemCopies (pr : PieceReader) (plen : Nat) (ib : ItemBlock)
    (m : ItemBlockMetadata) (acc : Bytes) (evs : List Event) : ReadResult :=
  let s0 : CopyState := ⟨pr.pos, acc⟩
  let s1 := copyFrom plen m.varint m.pieceOffset s0
  if s0.pos < m.cidOffset ∧ s1.out.length = plen then
    ⟨s1.out, { pr with pos := s1.pos }, evs, .ok⟩
  else
    let s2 := copyFrom plen m.cid m.cidOffset s1
    if s1.pos < m.blockOffset ∧ s2.out.length = plen then
      ⟨s2.out, { pr with pos := s2.pos }, evs, .ok⟩
    else
      if s2.pos < m.endOffset then
        -- readTill := min(len(p), n+int(innerBlock.EndOffset()-pr.pos))
        let readTill := minNat plen (s2.out.length + (m.endOffset - s2.pos))
        let request := readTill - s2.out.length
        let stream := pr.reader.getD []
        let got := stream.take request
        let s3 : CopyState := ⟨s2.pos + got.length, s2.out ++ got⟩
        let evs := evs ++ [Event.streamRead request s2.pos (plen - s2.out.length)]
        let pr1 : PieceReader := { pr with reader := some (stream.drop request), pos := s3.pos }
        let advanced : PieceReader × List Event :=
          if s3.pos = m.endOffset then
            let pr2 : PieceReader := { pr1 with innerBlockID := pr1.innerBlockID + 1 }
            if ib.meta.length ≤ pr2.innerBlockID then
              ({ pr2 with blockID := pr2.blockID + 1, innerBlockID := 0, reader := none },
                evs ++ [Event.closeStream])
            else (pr2, evs)
          else (pr1, evs)
        ⟨s3.out, advanced.1, advanced.2, .ok⟩
      else
        ⟨s2.out, { pr with pos := s2.pos }, evs, .ok⟩

/-- The `ItemBlock` branch of `PieceReader.Read`: fetch the current metadata
entry (Go would panic on an out-of-range index), lazily open the stream
(`pr.reader == nil`), then fall through to the copies. -/
def readItem (pr : PieceReader) (plen : Nat) (ib : ItemBlock) (acc : Bytes) : ReadResult :=
  match ib.meta.get? pr.innerBlockID with
  | none => ⟨acc, pr, [], .panicked⟩
  | some m =>
    match pr.reader with
    | none =>
      match ib.item with
      | none => ⟨acc, pr, [], .panicked⟩
      | some it =>
        let off := m.itemOffset + pr.blockOffset
        let len := it.size - off
        let stream := ib.sourceHandler.read it.path off len
        readItemCopies { pr with reader := some stream } plen ib m acc
          [Event.openStream it.path off len]
    | some _ => readItemCopies pr plen ib m acc []

/-- `PieceReader.Read` with an output buffer of length `plen`. -/
def read (pr : PieceReader) (plen : Nat) : ReadResult :=
  if pr.blocks.length ≤ pr.blockID then
    ⟨[], pr, [], .eof⟩
  else
    let s1 := copyFrom plen pr.header 0 ⟨pr.pos, []⟩
    if pr.pos < pr.header.length ∧ s1.out.length = plen then
      ⟨s1.out, { pr with pos := s1.pos }, [], .ok⟩
    else
      match pr.blocks.getD pr.blockID default with
      | .raw rb => readRaw { pr with pos := s1.pos } plen rb s1.out
      | .item ib => readItem { pr with pos := s1.pos } plen ib s1.out

inductive StopKind where
  | fuel
  | eof
  | panicked
deriving DecidableEq, Repr

/-- Outcome of driving a reader with repeated `Read` calls. -/
structure RunResult where
  out : Bytes
  state : PieceReader
  events : List Event
  stop : StopKind

/-- Repeatedly call `Read` with buffer size `plen`, at most `fuel` times,
stopping at `io.EOF` (or a panic), concatenating outputs and events. -/
def readAll (plen : Nat) : Nat → PieceReader → RunResult
  | 0, pr => ⟨[], pr, [], .fuel⟩
  | fuel + 1, pr =>
    let r := read pr plen
    match r.status with
    | .eof => ⟨[], r.state, r.events, .eof⟩
    | .panicked => ⟨r.out, r.state, r.events, .panicked⟩
    | .ok =>
      let rest := readAll plen fuel r.state
      ⟨r.out ++ rest.out, rest.state, r.events ++ rest.events, rest.stop⟩

/-- `PieceReader.Close`: forwards to the open stream's `Close` if one is
open. It does not clear `pr.reader`. Returns the release calls it makes. -/
def PieceReader.close (pr : PieceReader) : List Event :=
  match pr.reader with
  | none => []
  | some _ => [Event.closeStream]

/-- Fueled loop of Go's `sort.Search`: smallest index in `[i, j)` at which
`f` holds (assuming `f` monotone), else `j`. Each iteration shrinks `j - i`,
so fuel `j - i + 1` is enough. -/
def searchLoop : Nat → (Nat → Bool) → Nat → Nat → Nat
  | 0, _, i, _ => i
  | fuel + 1, f, i, j =>
    if i < j then
      let m := (i + j) / 2
      if f m then searchLoop fuel f i m else searchLoop fuel f (m + 1) j
    else i

/-- `sort.Search(n, f)`. -/
def sortSearch (n : Nat) (f : Nat → Bool) : Nat :=
  searchLoop (n + 1) f 0 n

/-- `slices.BinarySearchFunc(xs, target, cmp)` with the target baked into
`cmp`: the position where the target would be inserted, plus whether it was
found exactly there. -/
def binarySearchFunc {α : Type} [Inhabited α] (xs : List α) (cmp : α → Int) : Nat × Bool :=
  let pos := sortSearch xs.length (fun i => decide (0 ≤ cmp (xs.getD i default)))
  if pos < xs.length then
    if cmp (xs.getD pos default) = 0 then (pos, true) else (pos, false)
  else (pos, false)

/-- `PieceReader.MakeCopy`. The Go comparator `int(b.GetPieceOffset() - o)`
(`uint64` subtraction cast to `int`) equals the signed difference for all
values below `2^63`, so it is modelled as `Int` subtraction. A `none` result
models a Go runtime panic (`pr.Blocks[index]` / `block.Meta[innerIndex]`
with an out-of-range index). -/
def PieceReader.makeCopy (pr : PieceReader) (offset : Nat) : Option PieceReader :=
  let newReader : PieceReader :=
    { blocks := pr.blocks, reader := none, pos := offset,
      blockID := 0, innerBlockID := 0, blockOffset := 0, header := pr.header }
  if offset < pr.header.length then
    some newReader
  else
    let res := binarySearchFunc pr.blocks (fun b => (b.getPieceOffset : Int) - (offset : Int))
    let index := res.1
    match pr.blocks.get? index with
    | none => none
    | some (.raw block) =>
      some { newReader with blockID := index, blockOffset := offset - block.pieceOffset }
    | some (.item block) =>
      let ires := binarySearchFunc block.meta (fun m => (m.pieceOffset : Int) - (offset : Int))
      let innerIndex := ires.1
      match block.meta.get? innerIndex with
      | none => none
      | some m =>
        some { newReader with
                 blockID := index
                 innerBlockID := innerIndex
                 blockOffset := offset - m.pieceOffset }

/-- Validation and build errors of `NewPieceReader`. The names follow the
spec's error kinds; each constructor corresponds to one `errors.New` site of
the source (`nilPanic` models a Go nil-pointer-dereference panic). -/
inductive BuildError where
  | emptyPlan
  | headerMisalignment
  | footerMisalignment
  | nonContiguous
  | unresolvableReference
  | handlerError (msg : String)
  | nilPanic
deriving DecidableEq, Repr

/-- The sanitize loop of `NewPieceReader` (`for i := 0; i < len(carBlocks)-1; i++`):
for each adjacent pair, the contiguity check on the pair, then the
raw-or-resolvable check on the left element. The last element is never the
left element of a pair, so it is not checked. -/
def sanitizeLoop : List CarBlock → Except BuildError Unit
  | a :: b :: rest =>
    if a.carOffset + a.carBlockLength ≠ b.carOffset then
      .error .nonContiguous
    else if a.rawBlock = none ∧ (a.item = none ∨ a.source = none) then
      .error .unresolvableReference
    else
      sanitizeLoop (b :: rest)
  | _ => .ok ()

/-- The metadata entry built from one car block (both at run start and when
merging into the current run). -/
def metaOf (cb : CarBlock) : ItemBlockMetadata :=
  { pieceOffset := cb.carOffset, varint := toUvarint cb.varint, cid := cb.cid,
    itemOffset := cb.itemOffset, itemLength := cb.blockLength }

/-- One iteration of the combine loop of `NewPieceReader`, threading the
in-progress run (`lastItemBlock`), the emitted blocks, and the trace of
`resolver.GetHandler` calls. -/
def buildStep (resolver : HandlerResolver) (cb : CarBlock)
    (lib : Option ItemBlock) (blocks : List PieceBlock) (trace : List Source) :
    Except BuildError (Option ItemBlock × List PieceBlock × List Source) :=
  -- if lastItemBlock != nil && (carBlock.RawBlock != nil || lastItemBlock.Item.ID != carBlock.Item.ID)
  let flushed : Except BuildError (Option ItemBlock × List PieceBlock) :=
    match lib with
    | none => .ok (none, blocks)
    | some l =>
      if cb.rawBlock.isSome then
        .ok (none, blocks ++ [PieceBlock.item l])
      else
        match l.item, cb.item with
        | some li, some ci =>
          if li.id ≠ ci.id then .ok (none, blocks ++ [PieceBlock.item l])
          else .ok (some l, blocks)
        | _, _ => .error .nilPanic
  match flushed with
  | .error e => .error e
  | .ok (lib1, blocks1) =>
    match cb.rawBlock with
    | some data =>
      .ok (lib1, blocks1 ++ [PieceBlock.raw
        { pieceOffset := cb.carOffset, varint := toUvarint cb.varint,
          cid := cb.cid, blockData := data }], trace)
    | none =>
      match lib1 with
      | none =>
        match cb.source with
        | none => .error .nilPanic
        | some src =>
          match resolver.getHandler src with
          | .error msg => .error (.handlerError msg)
          | .ok handler =>
            .ok (some { pieceOffset := cb.carOffset, sourceHandler := handler,
                        item := cb.item, meta := [metaOf cb] }, blocks1, trace ++ [src])
      | some l =>
        .ok (some { l with meta := l.meta ++ [metaOf cb] }, blocks1, trace)

/-- The combine loop of `NewPieceReader`, plus the trailing flush of
`lastItemBlock`. -/
def buildLoop (resolver : HandlerResolver) :
    List CarBlock → Option ItemBlock → List PieceBlock → List Source →
    Except BuildError (List PieceBlock × List Source)
  | [], lib, blocks, trace =>
    match lib with
    | some l => .ok (blocks ++ [PieceBlock.item l], trace)
    | none => .ok (blocks, trace)
  | cb :: rest, lib, blocks, trace =>
    match buildStep resolver cb lib blocks trace with
    | .error e => .error e
    | .ok (lib1, blocks1, trace1) => buildLoop resolver rest lib1 blocks1 trace1

/-- `NewPieceReader`. Besides the reader it returns the ordered trace of
`resolver.GetHandler` calls made while building. -/
def newPieceReader (car : Car) (carBlocks : List CarBlock) (resolver : HandlerResolver) :
    Except BuildError (PieceReader × List Source) :=
  match carBlocks with
  | [] => .error .emptyPlan
  | first :: _ =>
    if first.carOffset ≠ car.header.length then
      .error .headerMisalignment
    else
      let lastBlock := carBlocks.getLastD first
      if lastBlock.carOffset + lastBlock.carBlockLength ≠ car.fileSize then
        .error .footerMisalignment
      else
        match sanitizeLoop carBlocks with
        | .error e => .error e
        | .ok _ =>
          match buildLoop resolver carBlocks none [] [] with
          | .error e => .error e
          | .ok (blocks, trace) =>
            .ok ({ blocks := blocks, reader := none, pos := 0, blockID := 0,
                   innerBlockID := 0, blockOffset := 0, header := car.header }, trace)

/-! ## Reference-level descriptions of the output

Definitions of the byte stream the spec expects, used to state the
functional-correctness claims. -/

/-- The payload bytes a candidate block denotes: its inline bytes, or the
slice `[itemOffset, itemOffset+blockLength)` of the item content served by
the handler its source resolves to. -/
def candidatePayload (resolver : HandlerResolver) (cb : CarBlock) : Bytes :=
  match cb.rawBlock with
  | some data => data
  | none =>
    match cb.item, cb.source with
    | some it, some src =>
      match resolver.getHandler src with
      | .ok h => ((h.content it.path).drop cb.itemOffset).take cb.blockLength
      | .error _ => []
    | _, _ => []

/-- `prefix ++ identifier ++ payload` for one candidate block. -/
def candidateBytes (resolver : HandlerResolver) (cb : CarBlock) : Bytes :=
  toUvarint cb.varint ++ cb.cid ++ candidatePayload resolver cb

/-- The full piece stream the spec expects for a plan. -/
def pieceBytes (resolver : HandlerResolver) (car : Car) (carBlocks : List CarBlock) : Bytes :=
  car.header ++ (carBlocks.map (candidateBytes resolver)).flatten

/-- The item content a built `ItemBlock` reads from: the bytes its stored
handler serves for its stored item path. -/
def ItemBlock.itemContent (b : ItemBlock) : Bytes :=
  b.sourceHandler.content (match b.item with | some it => it.path | none => "")

/-- `prefix ++ identifier ++ item slice` for one metadata entry. -/
def metaBytes (content : Bytes) (m : ItemBlockMetadata) : Bytes :=
  m.varint ++ m.cid ++ ((content.drop m.itemOffset).take m.itemLength)

/-- The bytes one built block contributes to the piece stream. -/
def PieceBlock.serialized : PieceBlock → Bytes
  | .raw rb => rb.varint ++ rb.cid ++ rb.blockData
  | .item b => (b.meta.map (metaBytes b.itemContent)).flatten

/-- Whether a candidate continues a run of item blocks whose head has item
identity `headId`. -/
def continuesRun (headId : Nat) (cb : CarBlock) : Bool :=
  cb.rawBlock.isNone &&
    (match cb.item with
     | some it => it.id == headId
     | none => false)

/-- The handler a run's head resolves to (the run is assumed resolvable
where this definition is used under hypotheses). -/
def headHandler (resolver : HandlerResolver) (cb : CarBlock) : Handler :=
  match cb.source with
  | some src =>
    match resolver.getHandler src with
    | .ok h => h
    | .error _ => ⟨fun _ => []⟩
  | none => ⟨fun _ => []⟩

/-- The item identity of a candidate's item pointer (0 when absent; only
used where the item is present). -/
def idOf (cb : CarBlock) : Nat :=
  match cb.item with
  | some it => it.id
  | none => 0

/-- Fueled worker for `specFold`: each step consumes at least the head
candidate, so fuel `length + 1` is enough. -/
def specFoldAux (resolver : HandlerResolver) : Nat → List CarBlock → List PieceBlock
  | 0, _ => []
  | _, [] => []
  | fuel + 1, cb :: rest =>
    match cb.rawBlock with
    | some data =>
      PieceBlock.raw { pieceOffset := cb.carOffset, varint := toUvarint cb.varint,
                       cid := cb.cid, blockData := data }
        :: specFoldAux resolver fuel rest
    | none =>
      PieceBlock.item { pieceOffset := cb.carOffset
                        sourceHandler := headHandler resolver cb
                        item := cb.item
                        meta := (cb :: rest.takeWhile (continuesRun (idOf cb))).map metaOf }
        :: specFoldAux resolver fuel (rest.dropWhile (continuesRun (idOf cb)))

/-- Written from the spec's words (§4.2 step 6): the compacted block list —
an inline candidate becomes a `RawBlock`; each maximal run of consecutive
non-inline candidates with the same item identity becomes one `ItemBlock`
carrying the run head's handler and item and the run's metadata entries in
candidate order. -/
def specFold (resolver : HandlerResolver) (cbs : List CarBlock) : List PieceBlock :=
  specFoldAux resolver (cbs.length + 1) cbs

/-- Fueled worker for `runSources`. -/
def runSourcesAux : Nat → List CarBlock → List Source
  | 0, _ => []
  | _, [] => []
  | fuel + 1, cb :: rest =>
    match cb.rawBlock with
    | some _ => runSourcesAux fuel rest
    | none =>
      (match cb.source with | some src => [src] | none => [])
        ++ runSourcesAux fuel (rest.dropWhile (continuesRun (idOf cb)))

/-- The sources of the run heads of a plan, in order: one per maximal run of
consecutive non-inline candidates with the same item identity. -/
def runSources (cbs : List CarBlock) : List Source :=
  runSourcesAux (cbs.length + 1) cbs

/-- Number of metadata entries of a built block (0 for a raw block). -/
def PieceBlock.metaCount : PieceBlock → Nat
  | .raw _ => 0
  | .item b => b.meta.length

/-- Whether a built block is a raw (inline) block. -/
def PieceBlock.isRaw : PieceBlock → Bool
  | .raw _ => true
  | .item _ => false

/-! ## Instrumentation helpers for resource statements -/

/-- Step the open/closed status of the (at most one) source stream of a
reader through an event trace; `none` marks a discipline violation (a second
open while one is open, or a read/close with none open). -/
def traceSteps : Bool → List Event → Option Bool
  | b, [] => some b
  | false, .openStream _ _ _ :: es => traceSteps true es
  | true, .streamRead _ _ _ :: es => traceSteps true es
  | true, .closeStream :: es => traceSteps false es
  | _, _ => none

/-- Whether an event is a read from the open source stream. -/
def Event.isStreamRead : Event → Bool
  | .streamRead _ _ _ => true
  | _ => false

/-- Whether an event is a source-stream open. -/
def Event.isOpen : Event → Bool
  | .openStream _ _ _ => true
  | _ => false

/-- Whether an event is a source-stream release. -/
def Event.isClose : Event → Bool
  | .closeStream => true
  | _ => false

/-! ## Concrete fixtures used by counterexamples and witnesses -/

/-- A resolver with no resolvable sources. -/
def nullResolver : HandlerResolver := ⟨fun _ => .error ("unresolvable")⟩

/-- The spec's example piece: 4-byte header `0x0a0a0a0a`, one inline block at
offset 4 with prefix `0x05`, identifier `0xAA 0xBB`, payload `0xCC 0xDD`,
piece size 9. -/
def exampleCar : Car := { header := [10, 10, 10, 10], fileSize := 9 }

def exampleRawCB : CarBlock :=
  { carOffset := 4, carBlockLength := 5, varint := 5, cid := [170, 187],
    rawBlock := some [204, 221], item := none, source := none,
    itemOffset := 0, blockLength := 0 }

/-- The reader `NewPieceReader` builds for the example piece. -/
def examplePR : PieceReader :=
  { blocks := [PieceBlock.raw
      { pieceOffset := 4, varint := [5], cid := [170, 187], blockData := [204, 221] }],
    reader := none, pos := 0, blockID := 0, innerBlockID := 0, blockOffset := 0,
    header := [10, 10, 10, 10] }

/-- An item of 4 bytes at path a. -/
def itemA : Item := ⟨7, "a", 4⟩

def sourceA : Source := ⟨1⟩

def handlerA : Handler := ⟨fun p => if p = ("a") then [1, 2, 3, 4] else []⟩

def resolverA : HandlerResolver :=
  ⟨fun s => if s.id = 1 then .ok handlerA else .error ("unknown source")⟩

/-- Two consecutive candidates of `itemA` covering its 4 bytes. -/
def itemCB1 : CarBlock :=
  { carOffset := 1, carBlockLength := 4, varint := 3, cid := [9],
    rawBlock := none, item := some itemA, source := some sourceA,
    itemOffset := 0, blockLength := 2 }

def itemCB2 : CarBlock :=
  { carOffset := 5, carBlockLength := 4, varint := 3, cid := [8],
    rawBlock := none, item := some itemA, source := some sourceA,
    itemOffset := 2, blockLength := 2 }

def itemCar : Car := { header := [99], fileSize := 9 }

/-- The reader `NewPieceReader` builds for the two-candidate item plan. -/
def itemPR : PieceReader :=
  { blocks := [PieceBlock.item
      { pieceOffset := 1, sourceHandler := handlerA, item := some itemA,
        meta := [⟨1, [3], [9], 0, 2⟩, ⟨5, [3], [8], 2, 2⟩] }],
    reader := none, pos := 0, blockID := 0, innerBlockID := 0, blockOffset := 0,
    header := [99] }

/-- A candidate whose declared length (5) differs from the 3 bytes its
prefix, identifier and inline payload actually serialize to. -/
def badLenCB : CarBlock :=
  { carOffset := 1, carBlockLength := 5, varint := 0, cid := [7],
    rawBlock := some [9], item := none, source := none,
    itemOffset := 0, blockLength := 0 }

def badLenCar : Car := { header := [1], fileSize := 6 }

/-- A non-inline candidate with no source pointer. -/
def noSourceCB : CarBlock :=
  { carOffset := 1, carBlockLength := 3, varint := 3, cid := [9],
    rawBlock := none, item := some ⟨7, ("a"), 5⟩, source := none,
    itemOffset := 0, blockLength := 1 }

def noSourceCar : Car := { header := [1], fileSize := 4 }

/-- An inline candidate that can follow `noSourceCB`. -/
def trailingRawCB : CarBlock :=
  { carOffset := 4, carBlockLength := 3, varint := 0, cid := [7],
    rawBlock := some [9], item := none, source := none,
    itemOffset := 0, blockLength := 0 }

def noSourceCar2 : Car := { header := [1], fileSize := 7 }

/-- A reader state holding an open source stream. -/
def openStreamPR : PieceReader :=
  { blocks := [PieceBlock.item
      { pieceOffset := 1, sourceHandler := handlerA, item := some itemA,
        meta := [⟨1, [3], [9], 0, 2⟩, ⟨5, [3], [8], 2, 2⟩] }],
    reader := some [3, 4], pos := 7, blockID := 0, innerBlockID := 1, blockOffset := 0,
    header := [99] }

/-- The reader `MakeCopy(1)` builds from `examplePR` (offset inside the
header). -/
def exampleCopy1 : PieceReader :=
  { blocks := examplePR.blocks, reader := none, pos := 1, blockID := 0,
    innerBlockID := 0, blockOffset := 0, header := examplePR.header }

/-- `itemPR` after its one-byte header has been read: positioned at the
start of the item block, stream not yet open. -/
def itemPRstep : PieceReader :=
  { blocks := itemPR.blocks, reader := none, pos := 1, blockID := 0,
    innerBlockID := 0, blockOffset := 0, header := [99] }

/-- Two inline candidates with a one-byte gap between them. -/
def gapCB1 : CarBlock :=
  { carOffset := 1, carBlockLength := 3, varint := 0, cid := [7],
    rawBlock := some [9], item := none, source := none,
    itemOffset := 0, blockLength := 0 }

def gapCB2 : CarBlock := { gapCB1 with carOffset := 5 }

def gapCar : Car := { header := [1], fileSize := 8 }

/-- A car whose header length does not match the example block's offset. -/
def misalignedCar : Car := { header := [1], fileSize := 9 }

/-- A car whose declared size exceeds the example block's end. -/
def shortFooterCar : Car := { header := [10, 10, 10, 10], fileSize := 10 }

/-- A candidate is inline or fully resolvable: item and source pointers
present and the resolver returns a handler for the source. -/
def itemResolvable (resolver : HandlerResolver) (cb : CarBlock) : Prop :=
  cb.rawBlock = none → ∃ it src h, cb.item = some it ∧ cb.source = some src ∧
    resolver.getHandler src = Except.ok h

/-- Items, sources and a resolver for the 5 + 1 + 2 folding scenario. -/
def itemC : Item := ⟨11, ("c"), 5⟩

def sourceC : Source := ⟨3⟩

def handlerC : Handler := ⟨fun p => if p = ("c") then [1, 2, 3, 4, 5] else []⟩

def itemD : Item := ⟨12, ("d"), 2⟩

def sourceD : Source := ⟨4⟩

def handlerD : Handler := ⟨fun p => if p = ("d") then [21, 22] else []⟩

def resolverCD : HandlerResolver :=
  ⟨fun s => if s.id = 3 then .ok handlerC
    else if s.id = 4 then .ok handlerD
    else .error ("unknown")⟩

/-- The i-th of five consecutive one-byte candidates of `itemC`. -/
def runCB (i : Nat) : CarBlock :=
  { carOffset := 1 + 3 * i, carBlockLength := 3, varint := 2, cid := [9],
    rawBlock := none, item := some itemC, source := some sourceC,
    itemOffset := i, blockLength := 1 }

def inlineCB : CarBlock :=
  { carOffset := 16, carBlockLength := 3, varint := 2, cid := [7],
    rawBlock := some [42], item := none, source := none,
    itemOffset := 0, blockLength := 0 }

/-- The i-th of two consecutive one-byte candidates of `itemD`. -/
def runDB (i : Nat) : CarBlock :=
  { carOffset := 19 + 3 * i, carBlockLength := 3, varint := 2, cid := [6],
    rawBlock := none, item := some itemD, source := some sourceD,
    itemOffset := i, blockLength := 1 }

/-- 5 same-item candidates, 1 inline candidate, 2 candidates of another
item. -/
def mixedPlan : List CarBlock :=
  [runCB 0, runCB 1, runCB 2, runCB 3, runCB 4, inlineCB, runDB 0, runDB 1]

def mixedCar : Car := { header := [1], fileSize := 25 }

/-- The reader `NewPieceReader` builds for `mixedPlan`:
`[ItemBlock with 5 entries, RawBlock, ItemBlock with 2 entries]`. -/
def mixedPR : PieceReader :=
  { blocks :=
      [PieceBlock.item
        { pieceOffset := 1, sourceHandler := handlerC, item := some itemC,
          meta := [⟨1, [2], [9], 0, 1⟩, ⟨4, [2], [9], 1, 1⟩, ⟨7, [2], [9], 2, 1⟩,
                   ⟨10, [2], [9], 3, 1⟩, ⟨13, [2], [9], 4, 1⟩] },
       PieceBlock.raw { pieceOffset := 16, varint := [2], cid := [7], blockData := [42] },
       PieceBlock.item
        { pieceOffset := 19, sourceHandler := handlerD, item := some itemD,
          meta := [⟨19, [2], [6], 0, 1⟩, ⟨22, [2], [6], 1, 1⟩] }],
    reader := none, pos := 0, blockID := 0, innerBlockID := 0, blockOffset := 0,
    header := [1] }

/-! ## Well-formedness of plans and block lists (for the streaming proof) -/

/-- The payload byte count a candidate serializes to. -/
def cbPayload (cb : CarBlock) : Nat :=
  match cb.rawBlock with
  | some data => data.length
  | none => cb.blockLength

/-- The number of bytes a candidate actually serializes to:
prefix + identifier + payload. -/
def cbActualLen (cb : CarBlock) : Nat :=
  (toUvarint cb.varint).length + cb.cid.length + cbPayload cb

/-- A non-inline candidate is fully readable: pointers present, resolvable,
positive payload length, and its slice lies within the item's declared size
and within the content its handler actually serves. -/
def itemReadable (resolver : HandlerResolver) (cb : CarBlock) : Prop :=
  cb.rawBlock = none → ∃ it src h, cb.item = some it ∧ cb.source = some src ∧
    resolver.getHandler src = Except.ok h ∧ 1 ≤ cb.blockLength ∧
    cb.itemOffset + cb.blockLength ≤ it.size ∧
    it.size ≤ (h.content it.path).length

/-- Agreement between adjacent same-run candidates: a candidate continuing
its predecessor's item carries the same item record and source and continues
exactly where the predecessor's item range ended. -/
def runStep (a b : CarBlock) : Prop :=
  a.rawBlock = none → b.rawBlock = none → idOf b = idOf a →
    b.item = a.item ∧ b.source = a.source ∧ b.itemOffset = a.itemOffset + a.blockLength

/-- Metadata entries starting at piece position `pos` and item offset `o`,
contiguous in both the piece and the item, every payload nonempty. -/
def metaChainAt : Nat → Nat → List ItemBlockMetadata → Prop
  | _, _, [] => True
  | pos, o, m :: rest =>
    m.pieceOffset = pos ∧ m.itemOffset = o ∧ 1 ≤ m.itemLength ∧
    metaChainAt m.endOffset (o + m.itemLength) rest

/-- The item offset of a run's first metadata entry. -/
def ItemBlock.headItemOffset (b : ItemBlock) : Nat :=
  match b.meta with
  | m :: _ => m.itemOffset
  | [] => 0

/-- Well-formedness of a built item run. -/
def ItemBlock.wf (b : ItemBlock) : Prop :=
  ∃ it, b.item = some it ∧ b.meta ≠ [] ∧
    metaChainAt b.pieceOffset b.headItemOffset b.meta ∧
    (∀ m ∈ b.meta, m.itemOffset + m.itemLength ≤ it.size) ∧
    it.size ≤ (b.sourceHandler.content it.path).length

def PieceBlock.wf : PieceBlock → Prop
  | .raw _ => True
  | .item b => b.wf

/-- End offset of a built block (piece offset after its last byte). -/
def PieceBlock.endOff : PieceBlock → Nat
  | .raw rb => rb.endOffset
  | .item b =>
    match b.meta.getLast? with
    | some m => m.endOffset
    | none => b.pieceOffset

/-- A block list in which each block is well-formed, starts at the running
position, and ends where the next one starts. -/
def blocksChainAt : Nat → List PieceBlock → Prop
  | _, [] => True
  | pos, b :: rest => b.getPieceOffset = pos ∧ b.wf ∧ blocksChainAt b.endOff rest

/-- The byte length a built block contributes to the stream. -/
def PieceBlock.byteLen : PieceBlock → Nat
  | .raw rb => rb.length
  | .item b => (b.meta.map ItemBlockMetadata.length).sum

/-- Number of `Read` calls needed to stream a block (one per raw block, one
per metadata entry of an item run) when the buffer is large enough. -/
def blockSeg : PieceBlock → Nat
  | .raw _ => 1
  | .item b => b.meta.length

def segCount (bs : List PieceBlock) : Nat :=
  (bs.map blockSeg).sum

/-- The bytes a block list serializes to. -/
def serializeBlocks (bs : List PieceBlock) : Bytes :=
  (bs.map PieceBlock.serialized).flatten

/-- The position after streaming a chained block list starting at `pos`. -/
def chainEnd : Nat → List PieceBlock → Nat
  | pos, [] => pos
  | _, b :: rest => chainEnd b.endOff rest

/-- The position after streaming a chained metadata list starting at `pos`. -/
def metaEndPos : Nat → List ItemBlockMetadata → Nat
  | pos, [] => pos
  | _, m :: rest => metaEndPos m.endOffset rest

/-- The canonical reader state between segments: positioned at `pos` with
block index `bid`, no open stream. -/
def boundary (blocks : List PieceBlock) (hdr : Bytes) (bid pos : Nat) : PieceReader :=
  { blocks := blocks, reader := none, pos := pos, blockID := bid,
    innerBlockID := 0, blockOffset := 0, header := hdr }

/-- The canonical reader state in the middle of an item run: at entry
`inner` of block `bid`, with the run's stream open and `stream` left. -/
def midRun (blocks : List PieceBlock) (hdr : Bytes) (bid inner pos : Nat)
    (stream : Bytes) : PieceReader :=
  { blocks := blocks, reader := some stream, pos := pos, blockID := bid,
    innerBlockID := inner, blockOffset := 0, header := hdr }

/-- Contiguity of adjacent candidates as the sanitize loop checks it. -/
def contigStep (a b : CarBlock) : Prop :=
  a.carOffset + a.carBlockLength = b.carOffset

/-- End offset declared by the last candidate of a plan (0 for an empty
plan). -/
def lastEnd (cbs : List CarBlock) : Nat :=
  match cbs.getLast? with
  | some c => c.carOffset + c.carBlockLength
  | none => 0

/-- Every segment of a block fits a buffer of `plen` bytes together with
`hlen` already-accumulated bytes. -/
def PieceBlock.fitsBuf (hlen plen : Nat) : PieceBlock → Prop
  | .raw rb => hlen + rb.length < plen
  | .item b => ∀ m ∈ b.meta, hlen + ItemBlockMetadata.length m < plen

/-- The reader `NewPieceReader` builds for the bad-declared-length plan. -/
def badLenPR : PieceReader :=
  { blocks := [PieceBlock.raw ⟨1, [0], [7], [9]⟩],
    reader := none, pos := 0, blockID := 0, innerBlockID := 0, blockOffset := 0,
    header := [1] }

/-! ## Theorems -/

/-- If some adjacent pair of candidates has a gap or overlap and every
candidate passes the raw-or-resolvable check, the sanitize loop reports
`nonContiguous`. -/
theorem sanitizeLoop_gap : ∀ (cbs : List CarBlock),
    (∃ i, i + 1 < cbs.length ∧
      (cbs.getD i default).carOffset + (cbs.getD i default).carBlockLength
        ≠ (cbs.getD (i + 1) default).carOffset) →
    (∀ cb ∈ cbs, cb.rawBlock ≠ none ∨ (cb.item ≠ none ∧ cb.source ≠ none)) →
    sanitizeLoop cbs = .error .nonContiguous := by
  intro cbs
  induction cbs with
  | nil =>
    rintro ⟨i, hi, _⟩ _
    simp at hi
  | cons a tail ih =>
    rintro ⟨i, hi, hgap⟩ hres
    cases tail with
    | nil =>
      simp at hi
    | cons b rest =>
      by_cases h0 : a.carOffset + a.carBlockLength ≠ b.carOffset
      · simp [sanitizeLoop, h0]
      · have ha := hres a (by simp)
        have hcheck : ¬(a.rawBlock = none ∧ (a.item = none ∨ a.source = none)) := by
          rcases ha with h | ⟨h1, h2⟩
          · exact fun hc => h hc.1
          · rintro ⟨_, h3 | h3⟩
            · exact h1 h3
            · exact h2 h3
        have hrec : sanitizeLoop (b :: rest) = .error .nonContiguous := by
          apply ih
          · cases i with
            | zero =>
              exfalso
              apply h0
              simpa using hgap
            | succ j =>
              refine ⟨j, ?_, ?_⟩
              · simpa using hi
              · simpa using hgap
          · intro cb hcb
            exact hres cb (List.mem_cons_of_mem _ hcb)
        simp [sanitizeLoop, h0, hcheck, hrec]

/-- **C3** — `NewPieceReader` fails with the respective validation error on
an empty plan, a first candidate not starting at the header length, a last
candidate not ending at the declared piece size, and (when the other checks
pass and every candidate is raw or resolvable) a gap or overlap between some
adjacent pair of candidates. -/
theorem newPieceReader_validation (car : Car) (carBlocks : List CarBlock)
    (resolver : HandlerResolver) :
    (carBlocks = [] → newPieceReader car carBlocks resolver = .error .emptyPlan) ∧
    (∀ first rest, carBlocks = first :: rest →
      first.carOffset ≠ car.header.length →
      newPieceReader car carBlocks resolver = .error .headerMisalignment) ∧
    (∀ first rest, carBlocks = first :: rest →
      first.carOffset = car.header.length →
      (carBlocks.getLastD first).carOffset + (carBlocks.getLastD first).carBlockLength
        ≠ car.fileSize →
      newPieceReader car carBlocks resolver = .error .footerMisalignment) ∧
    (∀ first rest, carBlocks = first :: rest →
      first.carOffset = car.header.length →
      (carBlocks.getLastD first).carOffset + (carBlocks.getLastD first).carBlockLength
        = car.fileSize →
      (∃ i, i + 1 < carBlocks.length ∧
        (carBlocks.getD i default).carOffset + (carBlocks.getD i default).carBlockLength
          ≠ (carBlocks.getD (i + 1) default).carOffset) →
      (∀ cb ∈ carBlocks, cb.rawBlock ≠ none ∨ (cb.item ≠ none ∧ cb.source ≠ none)) →
      newPieceReader car carBlocks resolver = .error .nonContiguous) := by
  refine ⟨?_, ?_, ?_, ?_⟩
  · rintro rfl
    rfl
  · rintro first rest rfl hne
    simp [newPieceReader, hne]
  · rintro first rest rfl h1 h2
    rw [List.getLastD_eq_getLast?] at h2
    simp [newPieceReader, h1, h2]
  · rintro first rest rfl h1 h2 hgap hres
    have hs := sanitizeLoop_gap _ hgap hres
    rw [List.getLastD_eq_getLast?] at h2
    simp [newPieceReader, h1, h2, hs]

/-- `readRaw` makes no environment calls and leaves the stream field
untouched. -/
theorem readRaw_events (pr : PieceReader) (plen : Nat) (rb : RawBlock) (acc : Bytes) :
    (readRaw pr plen rb acc).events = [] ∧
    (readRaw pr plen rb acc).state.reader = pr.reader := by
  unfold readRaw
  dsimp only
  split
  · exact ⟨rfl, rfl⟩
  · split
    · exact ⟨rfl, rfl⟩
    · split
      · exact ⟨rfl, rfl⟩
      · exact ⟨rfl, rfl⟩

/-- `readItemCopies` only appends to the given event list: nothing, or one
bounded stream read, optionally followed by the run-end release; the one
stream read requests exactly `min(space, entry end - position)` bytes. -/
theorem readItemCopies_shape (pr : PieceReader) (plen : Nat) (ib : ItemBlock)
    (m : ItemBlockMetadata) (acc : Bytes) (evs : List Event) :
    (readItemCopies pr plen ib m acc evs).status = .ok ∧
    ∃ tail, (readItemCopies pr plen ib m acc evs).events = evs ++ tail ∧
      (∀ e ∈ tail, Event.isOpen e = false) ∧
      tail.countP Event.isStreamRead ≤ 1 ∧
      (∀ req posB space, Event.streamRead req posB space ∈ tail →
        req = minNat space (m.endOffset - posB) ∧
        req ≤ space ∧ req ≤ m.endOffset - posB) ∧
      ((tail = [] ∧ (readItemCopies pr plen ib m acc evs).state.reader = pr.reader) ∨
       (∃ a b c, tail = [Event.streamRead a b c] ∧
         ((readItemCopies pr plen ib m acc evs).state.reader).isSome = true) ∨
       (∃ a b c, tail = [Event.streamRead a b c, Event.closeStream] ∧
         (readItemCopies pr plen ib m acc evs).state.reader = none)) := by
  have harith : ∀ plen2 n e : Nat,
      minNat plen2 (n + e) - n = minNat (plen2 - n) e ∧
      minNat plen2 (n + e) - n ≤ plen2 - n ∧
      minNat plen2 (n + e) - n ≤ e := by
    intro plen2 n e
    refine ⟨?_, ?_, ?_⟩ <;> (simp only [minNat]; split <;> (try split) <;> omega)
  unfold readItemCopies
  dsimp only
  split
  · exact ⟨rfl, [], by simp, by simp, by simp, by simp, Or.inl ⟨rfl, rfl⟩⟩
  · split
    · exact ⟨rfl, [], by simp, by simp, by simp, by simp, Or.inl ⟨rfl, rfl⟩⟩
    · set s2 := copyFrom plen m.cid m.cidOffset
        (copyFrom plen m.varint m.pieceOffset ⟨pr.pos, acc⟩) with hs2
      split
      · -- payload branch
        set ev := Event.streamRead
          (minNat plen (s2.out.length + (m.endOffset - s2.pos)) - s2.out.length)
          s2.pos (plen - s2.out.length) with hevdef
        have hprops : ∀ req posB space, Event.streamRead req posB space = ev →
            req = minNat space (m.endOffset - posB) ∧
            req ≤ space ∧ req ≤ m.endOffset - posB := by
          intro req posB space he
          rw [hevdef] at he
          obtain ⟨rfl, rfl, rfl⟩ := Event.streamRead.injEq .. |>.mp he
          exact harith plen s2.out.length (m.endOffset - s2.pos)
        split
        · -- cursor reached the entry end
          split
          · -- last entry of the run: advance block and release
            refine ⟨rfl, [ev, Event.closeStream], by simp, ?_, ?_, ?_, ?_⟩
            · intro e he
              simp only [List.mem_cons, List.not_mem_nil, or_false] at he
              rcases he with rfl | rfl
              · rw [hevdef]; rfl
              · rfl
            · rw [hevdef]
              simp [List.countP_cons, Event.isStreamRead, Event.isClose]
            · intro req posB space hmem
              simp only [List.mem_cons, List.not_mem_nil, or_false] at hmem
              rcases hmem with he | he
              · exact hprops _ _ _ he
              · exact Event.noConfusion he
            · exact Or.inr (Or.inr ⟨_, _, _, rfl, rfl⟩)
          · refine ⟨rfl, [ev], rfl, ?_, ?_, ?_, ?_⟩
            · intro e he
              simp only [List.mem_cons, List.not_mem_nil, or_false] at he
              subst he
              rw [hevdef]
              rfl
            · rw [hevdef]
              simp [List.countP_cons, Event.isStreamRead]
            · intro req posB space hmem
              simp only [List.mem_cons, List.not_mem_nil, or_false] at hmem
              exact hprops _ _ _ hmem
            · exact Or.inr (Or.inl ⟨_, _, _, rfl, rfl⟩)
        · refine ⟨rfl, [ev], rfl, ?_, ?_, ?_, ?_⟩
          · intro e he
            simp only [List.mem_cons, List.not_mem_nil, or_false] at he
            subst he
            rw [hevdef]
            rfl
          · rw [hevdef]
            simp [List.countP_cons, Event.isStreamRead]
          · intro req posB space hmem
            simp only [List.mem_cons, List.not_mem_nil, or_false] at hmem
            exact hprops _ _ _ hmem
          · exact Or.inr (Or.inl ⟨_, _, _, rfl, rfl⟩)
      · exact ⟨rfl, [], by simp, by simp, by simp, by simp, Or.inl ⟨rfl, rfl⟩⟩

/-- `traceSteps` on the empty trace. -/
theorem traceSteps_nil (b : Bool) : traceSteps b [] = some b := by
  cases b <;> rfl

/-- `traceSteps` splits over concatenation of traces. -/
theorem traceSteps_append (xs ys : List Event) : ∀ b,
    traceSteps b (xs ++ ys) = (traceSteps b xs).bind fun b2 => traceSteps b2 ys := by
  induction xs with
  | nil => intro b; cases b <;> rfl
  | cons e es ih =>
    intro b
    cases e <;> cases b <;> simp [traceSteps, ih]

/-- `readItemCopies` keeps the single-stream discipline. -/
theorem readItemCopies_traceSteps (pr : PieceReader) (plen : Nat) (ib : ItemBlock)
    (m : ItemBlockMetadata) (acc : Bytes) (evs : List Event) (b : Bool)
    (hrdr : pr.reader.isSome = true)
    (hev : traceSteps b evs = some true) :
    traceSteps b (readItemCopies pr plen ib m acc evs).events
      = some (((readItemCopies pr plen ib m acc evs).state.reader).isSome) := by
  obtain ⟨-, tail, hevs, -, -, -, hshape⟩ := readItemCopies_shape pr plen ib m acc evs
  rw [hevs, traceSteps_append, hev]
  rcases hshape with ⟨rfl, hr⟩ | ⟨a, c, d, rfl, hr⟩ | ⟨a, c, d, rfl, hr⟩
  · rw [hr, hrdr]
    exact traceSteps_nil true
  · rw [hr]
    rfl
  · rw [hr]
    rfl

/-- One `Read` call keeps the single-stream discipline: starting from the
call's open/closed stream status, its event trace never opens a second
stream nor releases a stream that is not open, and ends in the status the
successor state records. -/
theorem read_traceSteps (pr : PieceReader) (plen : Nat) :
    traceSteps pr.reader.isSome (read pr plen).events
      = some (((read pr plen).state.reader).isSome) := by
  unfold read
  dsimp only
  split
  · exact traceSteps_nil _
  · split
    · exact traceSteps_nil _
    · split
      · -- raw block
        obtain ⟨hev, hrd⟩ := readRaw_events { pr with pos := (copyFrom plen pr.header 0 ⟨pr.pos, []⟩).pos } plen _ _
        rw [hev, hrd]
        exact traceSteps_nil _
      · -- item block
        unfold readItem
        split
        · exact traceSteps_nil _
        · split
          · split
            · exact traceSteps_nil _
            · apply readItemCopies_traceSteps
              · rfl
              · rename_i hreader hscrut hit hitem
                have hnone : pr.reader = none := hreader
                rw [hnone]
                rfl
          · rename_i s hrdr
            apply readItemCopies_traceSteps
            · rw [hrdr]
              rfl
            · have hsome : pr.reader = some s := hrdr
              rw [hsome]
              exact traceSteps_nil true

/-- Driving a reader with any number of `Read` calls keeps the
single-stream discipline across the whole concatenated event trace. -/
theorem readAll_traceSteps (plen : Nat) : ∀ (fuel : Nat) (pr : PieceReader),
    traceSteps pr.reader.isSome (readAll plen fuel pr).events
      = some (((readAll plen fuel pr).state.reader).isSome) := by
  intro fuel
  induction fuel with
  | zero =>
    intro pr
    exact traceSteps_nil _
  | succ f ih =>
    intro pr
    unfold readAll
    dsimp only
    have hcall := read_traceSteps pr plen
    split
    · exact hcall
    · exact hcall
    · rw [traceSteps_append, hcall]
      exact ih (read pr plen).state

/-- Along a legal trace, releases balance opens, up to the stream possibly
left open at either end. -/
theorem traceSteps_count (es : List Event) : ∀ b b2, traceSteps b es = some b2 →
    es.countP Event.isClose + (if b2 then 1 else 0)
      = es.countP Event.isOpen + (if b then 1 else 0) := by
  induction es with
  | nil =>
    intro b b2 h
    rw [traceSteps_nil] at h
    cases h
    rfl
  | cons e es ih =>
    intro b b2 h
    cases e <;> cases b <;> cases b2 <;>
      simp only [traceSteps, List.countP_cons, Event.isClose, Event.isOpen] at h ⊢ <;>
      first
        | cases h
        | (have h2 := ih _ _ h; simp at h2 ⊢; omega)
theorem newPieceReader_validation_witness :
    newPieceReader noSourceCar [] nullResolver = .error .emptyPlan ∧
    newPieceReader misalignedCar [exampleRawCB] nullResolver = .error .headerMisalignment ∧
    newPieceReader shortFooterCar [exampleRawCB] nullResolver = .error .footerMisalignment ∧
    newPieceReader gapCar [gapCB1, gapCB2] nullResolver = .error .nonContiguous := by
  refine ⟨(newPieceReader_validation noSourceCar [] nullResolver).1 rfl,
    (newPieceReader_validation misalignedCar [exampleRawCB] nullResolver).2.1
      exampleRawCB [] rfl (by decide),
    (newPieceReader_validation shortFooterCar [exampleRawCB] nullResolver).2.2.1
      exampleRawCB [] rfl (by decide) (by decide),
    (newPieceReader_validation gapCar [gapCB1, gapCB2] nullResolver).2.2.2
      gapCB1 [gapCB2] rfl (by decide) (by decide)
      ⟨0, by decide, by decide⟩ (by decide)⟩

/-- **C2** — counterexample. On the spec's own example piece the reader is
built and a full read returns the expected 9 bytes, but `MakeCopy(6)` — an
offset strictly inside the only block — makes `slices.BinarySearchFunc`
return the insertion index 1 = `len(Blocks)`, so `pr.Blocks[index]` panics
(modelled by `none`) instead of producing a reader that would yield
`0xBB 0xCC 0xDD`. -/
theorem makeCopy_mid_block_panics :
    newPieceReader exampleCar [exampleRawCB] nullResolver = .ok (examplePR, []) ∧
    (readAll 10 5 examplePR).out = [10, 10, 10, 10, 5, 170, 187, 204, 221] ∧
    (readAll 10 5 examplePR).stop = StopKind.eof ∧
    6 < exampleCar.fileSize ∧
    examplePR.makeCopy 6 = none :=
  ⟨rfl, rfl, rfl, by decide, rfl⟩

/-- **C4** — the sanitize loop stops at `len(carBlocks)-1`, so the last
candidate is never checked: a plan whose only (hence last) candidate is
non-inline and has no source passes validation and the build loop then
dereferences the nil source pointer (a Go panic, modelled `nilPanic`)
instead of failing with `UnresolvableReference`; the same candidate in a
non-last position is caught. -/
theorem unresolvable_last_candidate_not_checked :
    newPieceReader noSourceCar [noSourceCB] nullResolver = .error .nilPanic ∧
    newPieceReader noSourceCar2 [noSourceCB, trailingRawCB] nullResolver
      = .error .unresolvableReference :=
  ⟨rfl, rfl⟩

/-- **C9** — counterexample. `Close` does not clear `pr.reader`, so on a
reader holding an open stream a second `Close` call invokes the underlying
stream release again: two successive calls perform two releases, not one. -/
theorem close_releases_twice :
    openStreamPR.close = [Event.closeStream] ∧
    openStreamPR.close ++ openStreamPR.close
      = [Event.closeStream, Event.closeStream] :=
  ⟨rfl, rfl⟩

/-- **C6** — counterexample. On the two-entry item plan, the first 1-byte
read returns the header byte and opens nothing, but the second 1-byte read
returns only the block's length-prefix byte `3` — no payload byte — and
already opens the source stream: the open is not deferred to the first
payload byte. -/
theorem open_on_prefix_only_read :
    newPieceReader itemCar [itemCB1, itemCB2] resolverA = .ok (itemPR, [sourceA]) ∧
    (read itemPR 1).out = [99] ∧
    (read itemPR 1).events = [] ∧
    (read itemPR 1).state = itemPRstep ∧
    (read itemPRstep 1).out = [3] ∧
    (read itemPRstep 1).events = [Event.openStream ("a") 0 4] :=
  ⟨rfl, rfl, rfl, rfl, rfl, rfl⟩

/-- **C6** (amended). At most one source stream is open at any point: every
event trace a reader can produce steps the open/closed stream status without
ever opening a second stream or releasing an unopened one, ending in the
status the final state records; `MakeCopy` returns readers with no open
stream; and a `Read` call satisfied entirely from header bytes makes no
environment call. (A `Read` call that reaches an item block, however, opens
the stream even if it returns only prefix/identifier bytes — see the
counterexample.) -/
theorem single_stream_discipline (pr : PieceReader) (plen fuel offset : Nat) :
    (traceSteps pr.reader.isSome (readAll plen fuel pr).events
      = some (((readAll plen fuel pr).state.reader).isSome)) ∧
    (∀ pr2, pr.makeCopy offset = some pr2 → pr2.reader = none) ∧
    (pr.pos < pr.header.length → pr.pos + plen ≤ pr.header.length →
      (read pr plen).events = [] ∧ (read pr plen).state.reader = pr.reader) := by
  refine ⟨readAll_traceSteps plen fuel pr, ?_, ?_⟩
  · intro pr2 h
    unfold PieceReader.makeCopy at h
    dsimp only at h
    split at h
    · cases h
      rfl
    · split at h
      · cases h
      · cases h
        rfl
      · split at h
        · cases h
        · cases h
          rfl
  · intro h1 h2
    unfold read
    dsimp only
    split
    · exact ⟨rfl, rfl⟩
    · split
      · exact ⟨rfl, rfl⟩
      · rename_i hcond
        exfalso
        apply hcond
        refine ⟨h1, ?_⟩
        unfold copyFrom
        dsimp only
        rw [if_pos (by simpa using h1)]
        simp only [List.nil_append, List.length_take, List.length_drop, Nat.sub_zero,
          List.length_nil]
        omega

/-- Witness for `single_stream_discipline` on the example reader. -/
theorem single_stream_discipline_witness :
    (traceSteps examplePR.reader.isSome (readAll 2 3 examplePR).events
      = some (((readAll 2 3 examplePR).state.reader).isSome)) ∧
    exampleCopy1.reader = none ∧
    (read examplePR 2).events = [] ∧ (read examplePR 2).state.reader = examplePR.reader := by
  obtain ⟨h1, h2, h3⟩ := single_stream_discipline examplePR 2 3 1
  exact ⟨h1, h2 exampleCopy1 rfl, h3 (by decide) (by decide)⟩

/-- **C7** — counterexample. Building the two-candidate item plan already
calls `resolver.GetHandler` once (the returned resolution trace is
`[sourceA]`, not empty): the source-read capability is obtained during plan
building inside `NewPieceReader`, not at the first `Read` call. -/
theorem resolution_happens_at_build :
    newPieceReader itemCar [itemCB1, itemCB2] resolverA = .ok (itemPR, [sourceA]) ∧
    ([sourceA] : List Source) ≠ [] :=
  ⟨rfl, by decide⟩

/-- **C8** — whenever a `Read` call opens the backing item stream, it opens
it at the current metadata entry's item byte offset plus the reader's
recorded already-consumed offset (`blockOffset`), requesting the item's
declared total size minus that start — the remaining bytes to the end of
the item, not just the entry's block length. -/
theorem open_stream_params (pr : PieceReader) (plen : Nat) (path : String) (off len : Nat)
    (hmem : Event.openStream path off len ∈ (read pr plen).events) :
    ∃ ib m it, pr.blocks.getD pr.blockID default = PieceBlock.item ib ∧
      ib.meta.get? pr.innerBlockID = some m ∧ ib.item = some it ∧
      pr.reader = none ∧ path = it.path ∧
      off = m.itemOffset + pr.blockOffset ∧
      len = it.size - (m.itemOffset + pr.blockOffset) := by
  unfold read at hmem
  dsimp only at hmem
  split at hmem
  · simp at hmem
  · split at hmem
    · simp at hmem
    · split at hmem
      · rw [(readRaw_events _ _ _ _).1] at hmem
        simp at hmem
      · rename_i ib hgetd
        unfold readItem at hmem
        split at hmem
        · simp at hmem
        · rename_i m hmeta
          split at hmem
          · split at hmem
            · simp at hmem
            · rename_i hreader hscrut it hitem
              obtain ⟨-, tail, hevs, hopens, -, -, -⟩ :=
                readItemCopies_shape _ plen ib m _ [Event.openStream it.path
                  (m.itemOffset + pr.blockOffset) (it.size - (m.itemOffset + pr.blockOffset))]
              rw [hevs, List.mem_append] at hmem
              rcases hmem with hmem | hmem
              · simp only [List.mem_singleton] at hmem
                obtain ⟨hp, ho, hl⟩ := Event.openStream.injEq .. |>.mp hmem
                exact ⟨ib, m, it, hgetd, hmeta, hitem, hreader, hp, ho, hl⟩
              · have := hopens _ hmem
                simp [Event.isOpen] at this
          · rename_i s hreader
            obtain ⟨-, tail, hevs, hopens, -, -, -⟩ :=
              readItemCopies_shape _ plen ib m _ []
            rw [hevs, List.nil_append] at hmem
            have := hopens _ hmem
            simp [Event.isOpen] at this

/-- Witness for `open_stream_params`: the open observed on the two-entry
item plan starts at item offset 0 and requests all 4 remaining bytes of the
item — not the entry's 2-byte block length. -/
theorem open_stream_params_witness :
    ∃ ib m it, itemPRstep.blocks.getD itemPRstep.blockID default = PieceBlock.item ib ∧
      ib.meta.get? itemPRstep.innerBlockID = some m ∧ ib.item = some it ∧
      itemPRstep.reader = none ∧ ("a") = it.path ∧
      0 = m.itemOffset + itemPRstep.blockOffset ∧
      4 = it.size - (m.itemOffset + itemPRstep.blockOffset) :=
  open_stream_params itemPRstep 1 ("a") 0 4 (by decide)

/-- **C10** — one `Read` call performs at most one source-stream read, and
any such read requests exactly `min(remaining buffer space, entry end -
current position)` bytes: it never asks the stream for bytes beyond the
current metadata entry's payload end nor beyond the caller's buffer. -/
theorem stream_read_bounds (pr : PieceReader) (plen : Nat) :
    (read pr plen).events.countP Event.isStreamRead ≤ 1 ∧
    (∀ req posB space, Event.streamRead req posB space ∈ (read pr plen).events →
      ∃ ib m, pr.blocks.getD pr.blockID default = PieceBlock.item ib ∧
        ib.meta.get? pr.innerBlockID = some m ∧
        req = minNat space (m.endOffset - posB) ∧
        req ≤ space ∧ req ≤ m.endOffset - posB) := by
  unfold read
  dsimp only
  split
  · exact ⟨by simp, by simp⟩
  · split
    · exact ⟨by simp, by simp⟩
    · split
      · rw [(readRaw_events _ _ _ _).1]
        exact ⟨by simp, by simp⟩
      · rename_i ib hgetd
        unfold readItem
        split
        · exact ⟨by simp, by simp⟩
        · rename_i m hmeta
          split
          · split
            · exact ⟨by simp, by simp⟩
            · rename_i hreader hscrut it hitem
              obtain ⟨-, tail, hevs, -, hcount, hreq, -⟩ :=
                readItemCopies_shape _ plen ib m _ [Event.openStream it.path
                  (m.itemOffset + pr.blockOffset) (it.size - (m.itemOffset + pr.blockOffset))]
              rw [hevs]
              constructor
              · rw [List.countP_append]
                simpa [Event.isStreamRead] using hcount
              · intro req posB space hmem
                rw [List.mem_append] at hmem
                rcases hmem with hmem | hmem
                · simp at hmem
                · exact ⟨ib, m, hgetd, hmeta, hreq _ _ _ hmem⟩
          · rename_i s hreader
            obtain ⟨-, tail, hevs, -, hcount, hreq, -⟩ :=
              readItemCopies_shape _ plen ib m _ []
            rw [hevs, List.nil_append]
            refine ⟨hcount, ?_⟩
            intro req posB space hmem
            exact ⟨ib, m, hgetd, hmeta, hreq _ _ _ hmem⟩

/-- Witness for `stream_read_bounds` on a concrete read that performs one
stream read. -/
theorem stream_read_bounds_witness :
    (read itemPRstep 5).events.countP Event.isStreamRead ≤ 1 ∧
    ∃ ib m, itemPRstep.blocks.getD itemPRstep.blockID default = PieceBlock.item ib ∧
      ib.meta.get? itemPRstep.innerBlockID = some m ∧
      2 = minNat 3 (m.endOffset - 3) ∧
      2 ≤ 3 ∧ 2 ≤ m.endOffset - 3 := by
  obtain ⟨h1, h2⟩ := stream_read_bounds itemPRstep 5
  exact ⟨h1, h2 2 3 3 (by decide)⟩

/-- **C9** (amended). `Close` releases the open stream exactly once per call
and is a silent no-op when no stream is open; it does not clear the stream
handle (so a direct second `Close` releases again — see the counterexample),
but over any drive of a reader that starts with no open stream, the releases
performed during reads plus those of the final `Close` exactly balance the
streams opened. -/
theorem close_contract (pr pr2 : PieceReader) (plen fuel : Nat) (s : Bytes) :
    (pr.reader = none → pr.close = []) ∧
    (pr.reader = some s → pr.close = [Event.closeStream]) ∧
    (pr2.reader = none →
      ((readAll plen fuel pr2).events
          ++ (readAll plen fuel pr2).state.close).countP Event.isClose
        = (readAll plen fuel pr2).events.countP Event.isOpen) := by
  refine ⟨?_, ?_, ?_⟩
  · intro h
    unfold PieceReader.close
    rw [h]
  · intro h
    unfold PieceReader.close
    rw [h]
  · intro h
    have htr := readAll_traceSteps plen fuel pr2
    rw [h] at htr
    have hcount := traceSteps_count _ _ _ htr
    rw [List.countP_append]
    cases hst : (readAll plen fuel pr2).state.reader with
    | none =>
      rw [hst] at hcount
      simp only [Option.isSome_none, Bool.false_eq_true, if_false] at hcount
      unfold PieceReader.close
      rw [hst]
      simpa using hcount
    | some s2 =>
      rw [hst] at hcount
      simp at hcount
      unfold PieceReader.close
      rw [hst]
      simp only [List.countP_cons, List.countP_nil, Event.isClose, if_pos trivial]
      omega

/-- A guarded copy whose cursor sits at the segment base and whose buffer
has room copies the whole segment. -/
theorem copyFrom_run (plen : Nat) (src : Bytes) (base : Nat) (s : CopyState)
    (hpos : s.pos = base) (h : s.out.length + src.length < plen) :
    copyFrom plen src base s = ⟨base + src.length, s.out ++ src⟩ := by
  unfold copyFrom
  by_cases hnil : src = []
  · subst hnil
    rw [if_neg (by simp [hpos])]
    cases s with
    | mk p o =>
      simp only [List.length_nil, Nat.add_zero, List.append_nil, CopyState.mk.injEq]
      exact ⟨hpos, trivial⟩
  · rw [if_pos (by rw [hpos]; have := List.length_pos.mpr hnil; omega)]
    rw [hpos]
    dsimp only
    rw [Nat.sub_self, List.drop_zero, List.take_of_length_le (by omega)]

/-- A guarded copy whose cursor is at or past the segment's limit is a
no-op. -/
theorem copyFrom_skip (plen : Nat) (src : Bytes) (base : Nat) (s : CopyState)
    (h : base + src.length <= s.pos) :
    copyFrom plen src base s = s := by
  unfold copyFrom
  rw [if_neg (by omega)]

/-- A `Read` call on a raw block positioned at its start with a roomy buffer
emits the whole block and advances to the next block. -/
theorem readRaw_run (pr : PieceReader) (plen : Nat) (rb : RawBlock) (acc : Bytes)
    (hpos : pr.pos = rb.pieceOffset)
    (hplen : acc.length + rb.length < plen) :
    readRaw pr plen rb acc
      = ⟨acc ++ (rb.varint ++ rb.cid ++ rb.blockData),
         { pr with pos := rb.endOffset, blockID := pr.blockID + 1, innerBlockID := 0 },
         [], .ok⟩ := by
  have hlen : rb.length = rb.varint.length + rb.cid.length + rb.blockData.length := rfl
  unfold readRaw
  dsimp only
  rw [copyFrom_run plen rb.varint rb.pieceOffset ⟨pr.pos, acc⟩ (by simpa using hpos)
    (by simp; omega)]
  rw [if_neg (by rintro ⟨-, hfull⟩; simp at hfull; omega)]
  rw [copyFrom_run plen rb.cid rb.cidOffset ⟨rb.pieceOffset + rb.varint.length, acc ++ rb.varint⟩
    rfl (by simp; omega)]
  rw [if_neg (by rintro ⟨-, hfull⟩; simp at hfull; omega)]
  rw [copyFrom_run plen rb.blockData rb.blockOffset
    ⟨rb.cidOffset + rb.cid.length, (acc ++ rb.varint) ++ rb.cid⟩
    rfl (by simp; omega)]
  rw [if_neg (by rintro ⟨-, hfull⟩; simp at hfull; omega)]
  simp [RawBlock.endOffset, RawBlock.blockOffset, RawBlock.cidOffset, List.append_assoc]

/-- A `Read` call positioned past the header dispatches directly on the
current block with an empty accumulator. -/
theorem read_dispatch (pr : PieceReader) (plen : Nat)
    (hb : pr.blockID < pr.blocks.length) (hpos : pr.header.length <= pr.pos) :
    read pr plen = (match pr.blocks.getD pr.blockID default with
      | .raw rb => readRaw pr plen rb []
      | .item ib => readItem pr plen ib []) := by
  unfold read
  dsimp only
  rw [if_neg (by omega)]
  rw [copyFrom_skip plen pr.header 0 ⟨pr.pos, []⟩ (by simpa using hpos)]
  rw [if_neg (by rintro ⟨h1, -⟩; omega)]

/-- A `Read` call at position 0 with a buffer larger than the header copies
the header and dispatches on the first block with the header as
accumulator. -/
theorem read_at_start (pr : PieceReader) (plen : Nat)
    (hb : pr.blockID < pr.blocks.length) (hpos : pr.pos = 0)
    (hplen : pr.header.length < plen) :
    read pr plen = (match pr.blocks.getD pr.blockID default with
      | .raw rb => readRaw { pr with pos := pr.header.length } plen rb pr.header
      | .item ib => readItem { pr with pos := pr.header.length } plen ib pr.header) := by
  unfold read
  dsimp only
  rw [show (⟨pr.pos, []⟩ : CopyState) = ⟨0, []⟩ from by rw [hpos]]
  rw [if_neg (by omega)]
  rw [copyFrom_run plen pr.header 0 ⟨0, []⟩ rfl (by simpa using hplen)]
  rw [if_neg (by rintro ⟨-, hfull⟩; simp at hfull; omega)]
  simp only [Nat.zero_add, List.nil_append]

/-- A `Read` call's item-copy phase at the start of metadata entry `m`,
with the run's stream open and positioned at `m`'s item offset, emits
`m`'s prefix, identifier and payload and advances the cursor (releasing the
stream when `m` is the run's last entry). -/
theorem readItemCopies_run (pr : PieceReader) (plen : Nat) (ib : ItemBlock) (it : Item)
    (mdone mrest : List ItemBlockMetadata) (m : ItemBlockMetadata)
    (acc : Bytes) (evs : List Event)
    (hmeta : ib.meta = mdone ++ m :: mrest)
    (hinner : pr.innerBlockID = mdone.length)
    (hpos : pr.pos = m.pieceOffset)
    (hrdr : pr.reader = some (((ib.sourceHandler.content it.path).drop m.itemOffset).take
      (it.size - m.itemOffset)))
    (hlen1 : 1 ≤ m.itemLength)
    (hfit : m.itemOffset + m.itemLength ≤ it.size)
    (hcont : it.size ≤ (ib.sourceHandler.content it.path).length)
    (hplen : acc.length + m.length < plen) :
    readItemCopies pr plen ib m acc evs
      = ⟨acc ++ metaBytes (ib.sourceHandler.content it.path) m,
         (if mrest.isEmpty then
            { pr with
                pos := m.endOffset
                blockID := pr.blockID + 1
                innerBlockID := 0
                reader := none }
          else
            { pr with
                pos := m.endOffset
                innerBlockID := pr.innerBlockID + 1
                reader := some (((ib.sourceHandler.content it.path).drop
                    (m.itemOffset + m.itemLength)).take
                  (it.size - (m.itemOffset + m.itemLength))) }),
         evs ++ [Event.streamRead m.itemLength (m.cidOffset + m.cid.length)
             (plen - ((acc ++ m.varint) ++ m.cid).length)]
           ++ (if mrest.isEmpty then [Event.closeStream] else []),
         .ok⟩ := by
  have hplen2 : acc.length + (m.varint.length + m.cid.length + m.itemLength) < plen := hplen
  unfold readItemCopies
  dsimp only
  rw [show (⟨pr.pos, acc⟩ : CopyState) = ⟨m.pieceOffset, acc⟩ from by rw [hpos]]
  rw [copyFrom_run plen m.varint m.pieceOffset ⟨m.pieceOffset, acc⟩ rfl (by simp; omega)]
  rw [if_neg (by rintro ⟨-, hfull⟩; simp at hfull; omega)]
  rw [copyFrom_run plen m.cid m.cidOffset ⟨m.pieceOffset + m.varint.length, acc ++ m.varint⟩
    rfl (by simp; omega)]
  rw [if_neg (by rintro ⟨-, hfull⟩; simp at hfull; omega)]
  rw [if_pos (show m.cidOffset + m.cid.length < m.endOffset from by
    simp [ItemBlockMetadata.cidOffset, ItemBlockMetadata.endOffset]; omega)]
  rw [hrdr]
  dsimp only [Option.getD_some]
  have hreq : minNat plen (((acc ++ m.varint) ++ m.cid).length
        + (m.endOffset - (m.cidOffset + m.cid.length)))
        - ((acc ++ m.varint) ++ m.cid).length = m.itemLength := by
    have hsub : m.endOffset - (m.cidOffset + m.cid.length) = m.itemLength := by
      simp [ItemBlockMetadata.cidOffset, ItemBlockMetadata.endOffset]
    rw [hsub]
    simp only [minNat, List.length_append]
    split <;> omega
  rw [hreq]
  have htake : (((ib.sourceHandler.content it.path).drop m.itemOffset).take
      (it.size - m.itemOffset)).take m.itemLength
      = ((ib.sourceHandler.content it.path).drop m.itemOffset).take m.itemLength := by
    rw [List.take_take, Nat.min_eq_left (by omega)]
  rw [htake]
  have hgotlen : (((ib.sourceHandler.content it.path).drop m.itemOffset).take
      m.itemLength).length = m.itemLength := by
    simp only [List.length_take, List.length_drop]
    omega
  rw [hgotlen]
  rw [if_pos (show m.cidOffset + m.cid.length + m.itemLength = m.endOffset from by
    simp [ItemBlockMetadata.cidOffset, ItemBlockMetadata.endOffset])]
  have hdrop : (((ib.sourceHandler.content it.path).drop m.itemOffset).take
      (it.size - m.itemOffset)).drop m.itemLength
      = ((ib.sourceHandler.content it.path).drop (m.itemOffset + m.itemLength)).take
        (it.size - (m.itemOffset + m.itemLength)) := by
    rw [List.drop_take, List.drop_drop, Nat.sub_sub]
  cases hrest : mrest with
  | nil =>
    subst hrest
    split
    · simp [metaBytes, ItemBlockMetadata.cidOffset, ItemBlockMetadata.endOffset,
        List.append_assoc]
    · rename_i hcond
      exfalso
      apply hcond
      rw [hmeta, hinner]
      simp
  | cons m2 mrest2 =>
    subst hrest
    split
    · rename_i hcond
      exfalso
      rw [hmeta, hinner] at hcond
      simp only [List.length_append, List.length_cons] at hcond
      omega
    · simp [metaBytes, ItemBlockMetadata.cidOffset, ItemBlockMetadata.endOffset,
        List.append_assoc, hdrop]

/-- A `Read` call's item branch at the start of metadata entry `m` (stream
lazily opened if needed) emits the entry and advances. -/
theorem readItem_run (pr : PieceReader) (plen : Nat) (ib : ItemBlock) (it : Item)
    (mdone mrest : List ItemBlockMetadata) (m : ItemBlockMetadata) (acc : Bytes)
    (hitem : ib.item = some it)
    (hmeta : ib.meta = mdone ++ m :: mrest)
    (hinner : pr.innerBlockID = mdone.length)
    (hpos : pr.pos = m.pieceOffset)
    (hbo : pr.blockOffset = 0)
    (hrdr : pr.reader = none ∨
      pr.reader = some (((ib.sourceHandler.content it.path).drop m.itemOffset).take
        (it.size - m.itemOffset)))
    (hlen1 : 1 ≤ m.itemLength)
    (hfit : m.itemOffset + m.itemLength ≤ it.size)
    (hcont : it.size ≤ (ib.sourceHandler.content it.path).length)
    (hplen : acc.length + m.length < plen) :
    readItem pr plen ib acc
      = ⟨acc ++ metaBytes (ib.sourceHandler.content it.path) m,
         (if mrest.isEmpty then
            { pr with
                pos := m.endOffset
                blockID := pr.blockID + 1
                innerBlockID := 0
                reader := none }
          else
            { pr with
                pos := m.endOffset
                innerBlockID := pr.innerBlockID + 1
                reader := some (((ib.sourceHandler.content it.path).drop
                    (m.itemOffset + m.itemLength)).take
                  (it.size - (m.itemOffset + m.itemLength))) }),
         (if pr.reader.isNone then
            [Event.openStream it.path m.itemOffset (it.size - m.itemOffset)]
          else [])
           ++ [Event.streamRead m.itemLength (m.cidOffset + m.cid.length)
             (plen - ((acc ++ m.varint) ++ m.cid).length)]
           ++ (if mrest.isEmpty then [Event.closeStream] else []),
         .ok⟩ := by
  have hget : ib.meta.get? pr.innerBlockID = some m := by
    rw [hmeta, hinner]
    rw [List.get?_eq_getElem?, List.getElem?_append_right (Nat.le_refl _)]
    simp
  unfold readItem
  rw [hget]
  dsimp only
  rcases hrdr with h | h
  · rw [h]
    dsimp only
    rw [hitem]
    dsimp only
    rw [hbo]
    simp only [Nat.add_zero]
    rw [readItemCopies_run
      { pr with
          reader := some (ib.sourceHandler.read it.path m.itemOffset (it.size - m.itemOffset))
          blockOffset := 0 }
      plen ib it mdone mrest m acc
      [Event.openStream it.path m.itemOffset (it.size - m.itemOffset)]
      hmeta hinner hpos (by simp [Handler.read]) hlen1 hfit hcont hplen]
    cases mrest <;> simp
  · rw [h]
    dsimp only
    rw [readItemCopies_run pr plen ib it mdone mrest m acc []
      hmeta hinner hpos h hlen1 hfit hcont hplen]
    cases mrest <;> simp

/-- Flushing on a non-continuing candidate: stepping the build loop from an
in-progress run equals stepping it with the run already emitted. -/
theorem buildStep_flush (resolver : HandlerResolver) (cb : CarBlock) (lib : ItemBlock)
    (blocks : List PieceBlock) (trace : List Source) (li : Item)
    (hli : lib.item = some li) (hres : itemResolvable resolver cb)
    (hnc : continuesRun li.id cb = false) :
    buildStep resolver cb (some lib) blocks trace
      = buildStep resolver cb none (blocks ++ [PieceBlock.item lib]) trace := by
  cases hraw : cb.rawBlock with
  | some data =>
    simp [buildStep, hraw]
  | none =>
    obtain ⟨it, src, h, hitem, hsrc, hh⟩ := hres hraw
    have hne : li.id ≠ it.id := by
      simp only [continuesRun, hraw, hitem, Option.isNone_none, Bool.true_and] at hnc
      intro he
      rw [he] at hnc
      simp at hnc
    simp [buildStep, hraw, hitem, hli, hne]

/-- Continuing the build loop from an in-progress run folds exactly the
maximal prefix of continuing candidates into that run. -/
theorem buildLoop_run (resolver : HandlerResolver) :
    ∀ (cbs : List CarBlock) (lib : ItemBlock) (li : Item)
      (blocks : List PieceBlock) (trace : List Source),
    lib.item = some li →
    (∀ cb ∈ cbs, itemResolvable resolver cb) →
    buildLoop resolver cbs (some lib) blocks trace
      = buildLoop resolver (cbs.dropWhile (continuesRun li.id)) none
          (blocks ++ [PieceBlock.item
            { lib with meta := lib.meta ++ (cbs.takeWhile (continuesRun li.id)).map metaOf }])
          trace := by
  intro cbs
  induction cbs with
  | nil =>
    intro lib li blocks trace hli hres
    simp [buildLoop]
  | cons cb rest ih =>
    intro lib li blocks trace hli hres
    by_cases hc : continuesRun li.id cb = true
    · have hraw : cb.rawBlock = none := by
        simp only [continuesRun, Bool.and_eq_true, Option.isNone_iff_eq_none] at hc
        exact hc.1
      obtain ⟨it, src, h, hitem, hsrc, hh⟩ := hres cb (by simp) hraw
      have hid : it.id = li.id := by
        simp only [continuesRun, hitem, Bool.and_eq_true] at hc
        simpa using hc.2
      have hstep : buildStep resolver cb (some lib) blocks trace
          = .ok (some { lib with meta := lib.meta ++ [metaOf cb] }, blocks, trace) := by
        simp [buildStep, hraw, hli, hitem, hid]
      simp only [buildLoop]
      rw [hstep]
      dsimp only
      rw [ih { lib with meta := lib.meta ++ [metaOf cb] } li blocks trace hli
        (fun cb2 h2 => hres cb2 (List.mem_cons_of_mem _ h2))]
      rw [List.dropWhile_cons_of_pos hc, List.takeWhile_cons_of_pos hc]
      simp [List.append_assoc]
    · have hnc : continuesRun li.id cb = false := by
        simpa using hc
      rw [List.dropWhile_cons_of_neg (by simp [hnc]), List.takeWhile_cons_of_neg (by simp [hnc])]
      simp only [List.map_nil, List.append_nil]
      simp only [buildLoop]
      rw [buildStep_flush resolver cb lib blocks trace li hli (hres cb (by simp)) hnc]

/-- The build loop from the empty run state produces exactly the spec's
folded block list and one handler resolution per run. -/
theorem buildLoop_specAux (resolver : HandlerResolver) :
    ∀ (fuel : Nat) (cbs : List CarBlock), cbs.length < fuel →
    ∀ (blocks : List PieceBlock) (trace : List Source),
    (∀ cb ∈ cbs, itemResolvable resolver cb) →
    buildLoop resolver cbs none blocks trace
      = .ok (blocks ++ specFoldAux resolver fuel cbs, trace ++ runSourcesAux fuel cbs) := by
  intro fuel
  induction fuel with
  | zero =>
    intro cbs h
    omega
  | succ f ih =>
    intro cbs hlen blocks trace hres
    cases cbs with
    | nil => simp [buildLoop, specFoldAux, runSourcesAux]
    | cons cb rest =>
      cases hraw : cb.rawBlock with
      | some data =>
        have hstep : buildStep resolver cb none blocks trace
            = .ok (none, blocks ++ [PieceBlock.raw
                { pieceOffset := cb.carOffset, varint := toUvarint cb.varint,
                  cid := cb.cid, blockData := data }], trace) := by
          simp [buildStep, hraw]
        simp only [buildLoop]
        rw [hstep]
        dsimp only
        rw [ih rest (by simp only [List.length_cons] at hlen; omega) _ _
          (fun cb2 h2 => hres cb2 (List.mem_cons_of_mem _ h2))]
        simp [specFoldAux, runSourcesAux, hraw, List.append_assoc]
      | none =>
        obtain ⟨it, src, h, hitem, hsrc, hh⟩ := hres cb (by simp) hraw
        have hstep : buildStep resolver cb none blocks trace
            = .ok (some { pieceOffset := cb.carOffset
                          sourceHandler := h
                          item := cb.item
                          meta := [metaOf cb] }, blocks, trace ++ [src]) := by
          simp [buildStep, hraw, hsrc, hh]
        simp only [buildLoop]
        rw [hstep]
        dsimp only
        rw [buildLoop_run resolver rest _ it blocks (trace ++ [src]) (by simp [hitem])
          (fun cb2 h2 => hres cb2 (List.mem_cons_of_mem _ h2))]
        rw [ih (rest.dropWhile (continuesRun it.id))
          (by
            have := (List.dropWhile_sublist (l := rest) (continuesRun it.id)).length_le
            simp only [List.length_cons] at hlen
            omega)
          _ _
          (fun cb2 h2 => hres cb2
            (List.mem_cons_of_mem _ ((List.dropWhile_sublist _).subset h2)))]
        have hid : idOf cb = it.id := by simp [idOf, hitem]
        have hhd : headHandler resolver cb = h := by simp [headHandler, hsrc, hh]
        simp [specFoldAux, runSourcesAux, hraw, hid, hhd, hsrc, List.append_assoc]

/-- Full characterization of a successful `NewPieceReader` build: the reader
starts at position 0 with no open stream over the spec's folded block list,
and the resolution trace lists one source per run. -/
theorem newPieceReader_ok (car : Car) (cbs : List CarBlock) (resolver : HandlerResolver)
    (pr : PieceReader) (tr : List Source)
    (hok : newPieceReader car cbs resolver = .ok (pr, tr))
    (hres : ∀ cb ∈ cbs, itemResolvable resolver cb) :
    pr = { blocks := specFold resolver cbs, reader := none, pos := 0, blockID := 0,
           innerBlockID := 0, blockOffset := 0, header := car.header }
    ∧ tr = runSources cbs := by
  unfold newPieceReader at hok
  cases cbs with
  | nil => exact Except.noConfusion hok
  | cons first rest =>
    dsimp only at hok
    split at hok
    · exact Except.noConfusion hok
    · split at hok
      · exact Except.noConfusion hok
      · split at hok
        · exact Except.noConfusion hok
        · rw [buildLoop_specAux resolver ((first :: rest).length + 1) (first :: rest)
            (by omega) [] [] hres] at hok
          dsimp only at hok
          rw [List.nil_append, List.nil_append] at hok
          obtain ⟨h1, h2⟩ := Prod.mk.injEq .. |>.mp (Except.ok.inj hok)
          exact ⟨h1.symm, h2.symm⟩

/-- **C5** — `NewPieceReader` folds candidates exactly as the spec's run
compaction describes: the built block list equals `specFold`, which turns
each maximal run of consecutive non-inline same-item candidates into one
`ItemBlock` with that run's metadata entries in candidate order, terminated
by inline candidates or a change of item. -/
theorem fold_runs (car : Car) (cbs : List CarBlock) (resolver : HandlerResolver)
    (pr : PieceReader) (tr : List Source)
    (hok : newPieceReader car cbs resolver = .ok (pr, tr))
    (hres : ∀ cb ∈ cbs, itemResolvable resolver cb) :
    pr.blocks = specFold resolver cbs := by
  rw [(newPieceReader_ok car cbs resolver pr tr hok hres).1]

/-- Witness for `fold_runs`: 5 same-item candidates + 1 inline + 2 same-item
candidates of another item yield `[ItemBlock(5 entries), RawBlock,
ItemBlock(2 entries)]`. -/
theorem fold_runs_witness :
    newPieceReader mixedCar mixedPlan resolverCD = .ok (mixedPR, [sourceC, sourceD]) ∧
    mixedPR.blocks = specFold resolverCD mixedPlan ∧
    mixedPR.blocks.map PieceBlock.metaCount = [5, 0, 2] ∧
    mixedPR.blocks.map PieceBlock.isRaw = [false, true, false] := by
  refine ⟨rfl, fold_runs mixedCar mixedPlan resolverCD mixedPR [sourceC, sourceD] rfl ?_,
    rfl, rfl⟩
  intro cb hcb
  simp only [mixedPlan, List.mem_cons, List.not_mem_nil, or_false] at hcb
  rcases hcb with rfl | rfl | rfl | rfl | rfl | rfl | rfl | rfl <;>
    exact fun hraw => by
      first
        | exact ⟨itemC, sourceC, handlerC, rfl, rfl, rfl⟩
        | exact ⟨itemD, sourceD, handlerD, rfl, rfl, rfl⟩
        | cases hraw

/-- One handler resolution per item run: the resolution trace's length is
the number of non-raw blocks in the folded block list. -/
theorem runSourcesAux_length (resolver : HandlerResolver) :
    ∀ (fuel : Nat) (cbs : List CarBlock), cbs.length < fuel →
    (∀ cb ∈ cbs, itemResolvable resolver cb) →
    (runSourcesAux fuel cbs).length
      = (specFoldAux resolver fuel cbs).countP (fun b => !b.isRaw) := by
  intro fuel
  induction fuel with
  | zero =>
    intro cbs h
    omega
  | succ f ih =>
    intro cbs hlen hres
    cases cbs with
    | nil => simp [specFoldAux, runSourcesAux]
    | cons cb rest =>
      cases hraw : cb.rawBlock with
      | some data =>
        rw [show runSourcesAux (f + 1) (cb :: rest) = runSourcesAux f rest by
          simp [runSourcesAux, hraw]]
        rw [ih rest (by simp only [List.length_cons] at hlen; omega)
          (fun cb2 h2 => hres cb2 (List.mem_cons_of_mem _ h2))]
        simp [specFoldAux, hraw, List.countP_cons, PieceBlock.isRaw]
      | none =>
        obtain ⟨it, src, h, hitem, hsrc, hh⟩ := hres cb (by simp) hraw
        rw [show runSourcesAux (f + 1) (cb :: rest)
            = [src] ++ runSourcesAux f (rest.dropWhile (continuesRun (idOf cb))) by
          simp [runSourcesAux, hraw, hsrc]]
        rw [List.singleton_append, List.length_cons]
        rw [ih (rest.dropWhile (continuesRun (idOf cb)))
          (by
            have := (List.dropWhile_sublist (l := rest) (continuesRun (idOf cb))).length_le
            simp only [List.length_cons] at hlen
            omega)
          (fun cb2 h2 => hres cb2
            (List.mem_cons_of_mem _ ((List.dropWhile_sublist _).subset h2)))]
        simp [specFoldAux, hraw, List.countP_cons, PieceBlock.isRaw]

/-- **C7** (amended) — the source-read capability is obtained exactly once
per run, but during plan building inside `NewPieceReader`: the build's
resolution trace lists the run heads' sources in order, one per item run of
the resulting block list (and `Read` never resolves — it only opens streams
through the stored handler; see the counterexample for the trace being
nonempty already at build time). -/
theorem build_resolves_once_per_run (car : Car) (cbs : List CarBlock)
    (resolver : HandlerResolver) (pr : PieceReader) (tr : List Source)
    (hok : newPieceReader car cbs resolver = .ok (pr, tr))
    (hres : ∀ cb ∈ cbs, itemResolvable resolver cb) :
    tr = runSources cbs ∧
    tr.length = pr.blocks.countP (fun b => !b.isRaw) := by
  obtain ⟨h1, h2⟩ := newPieceReader_ok car cbs resolver pr tr hok hres
  refine ⟨h2, ?_⟩
  rw [h1, h2]
  exact runSourcesAux_length resolver (cbs.length + 1) cbs (by omega) hres

/-- Witness for `build_resolves_once_per_run` on the 5 + 1 + 2 plan: two
runs, two resolutions. -/
theorem build_resolves_once_per_run_witness :
    ([sourceC, sourceD] : List Source) = runSources mixedPlan ∧
    ([sourceC, sourceD] : List Source).length
      = mixedPR.blocks.countP (fun b => !b.isRaw) := by
  apply build_resolves_once_per_run mixedCar mixedPlan resolverCD mixedPR [sourceC, sourceD] rfl
  intro cb hcb
  simp only [mixedPlan, List.mem_cons, List.not_mem_nil, or_false] at hcb
  rcases hcb with rfl | rfl | rfl | rfl | rfl | rfl | rfl | rfl <;>
    exact fun hraw => by
      first
        | exact ⟨itemC, sourceC, handlerC, rfl, rfl, rfl⟩
        | exact ⟨itemD, sourceD, handlerD, rfl, rfl, rfl⟩
        | cases hraw

/-- Witness for `close_contract` on concrete readers: a no-op close on a
fresh reader, a single release on an open-stream reader, and balanced
releases over a full drive of the item example. -/
theorem close_contract_witness :
    itemPR.close = [] ∧
    openStreamPR.close = [Event.closeStream] ∧
    ((readAll 20 5 itemPR).events ++ (readAll 20 5 itemPR).state.close).countP Event.isClose
      = (readAll 20 5 itemPR).events.countP Event.isOpen := by
  obtain ⟨h1, h2, h3⟩ := close_contract itemPR openStreamPR 20 5 [3, 4]
  obtain ⟨-, h2b, h3b⟩ := close_contract openStreamPR itemPR 20 5 [3, 4]
  exact ⟨h1 rfl, h2b rfl, h3b rfl⟩


/-- Unfolding one successful `Read` call of a `readAll` drive. -/
theorem readAll_ok_step (plen f : Nat) (pr pr2 : PieceReader) (out : Bytes)
    (evs : List Event) (hr : read pr plen = ⟨out, pr2, evs, .ok⟩) :
    readAll plen (f + 1) pr
      = ⟨out ++ (readAll plen f pr2).out, (readAll plen f pr2).state,
         evs ++ (readAll plen f pr2).events, (readAll plen f pr2).stop⟩ := by
  simp [readAll, hr]

/-- A drive whose reader is already past the last block stops with `io.EOF`
immediately. -/
theorem readAll_eofStep (plen f : Nat) (pr : PieceReader)
    (h : pr.blocks.length ≤ pr.blockID) :
    readAll plen (f + 1) pr = ⟨[], pr, [], .eof⟩ := by
  have hr : read pr plen = ⟨[], pr, [], .eof⟩ := by
    unfold read
    rw [if_pos h]
  simp [readAll, hr]

/-- Fuel composition: a drive that ran out of fuel continues, when given
more fuel, from the state where it stopped. -/
theorem readAll_add (plen : Nat) : ∀ (f1 f2 : Nat) (pr : PieceReader),
    (readAll plen f1 pr).stop = .fuel →
    (readAll plen (f1 + f2) pr).out
        = (readAll plen f1 pr).out ++ (readAll plen f2 (readAll plen f1 pr).state).out
    ∧ (readAll plen (f1 + f2) pr).state = (readAll plen f2 (readAll plen f1 pr).state).state
    ∧ (readAll plen (f1 + f2) pr).stop = (readAll plen f2 (readAll plen f1 pr).state).stop := by
  intro f1
  induction f1 with
  | zero =>
    intro f2 pr h
    simp [readAll]
  | succ f ih =>
    intro f2 pr h
    rcases hre : read pr plen with ⟨out, st, evs, stat⟩
    cases stat with
    | eof =>
      have hstep : readAll plen (f + 1) pr = ⟨[], st, evs, .eof⟩ := by simp [readAll, hre]
      rw [hstep] at h
      exact StopKind.noConfusion h
    | panicked =>
      have hstep : readAll plen (f + 1) pr = ⟨out, st, evs, .panicked⟩ := by
        simp [readAll, hre]
      rw [hstep] at h
      exact StopKind.noConfusion h
    | ok =>
      rw [readAll_ok_step plen f pr st out evs hre] at h
      dsimp only at h
      obtain ⟨h1, h2, h3⟩ := ih f2 st h
      rw [show f + 1 + f2 = (f + f2) + 1 from by omega]
      rw [readAll_ok_step plen (f + f2) pr st out evs hre,
        readAll_ok_step plen f pr st out evs hre]
      dsimp only
      rw [h1, h2, h3, List.append_assoc]
      exact ⟨rfl, rfl, rfl⟩

/-- `getD` at the length of the left part of an append picks the head of
the right part. -/
theorem getD_append_cons {α : Type} [Inhabited α] :
    ∀ (l1 : List α) (x : α) (l2 : List α),
    (l1 ++ x :: l2).getD l1.length default = x
  | [], _, _ => rfl
  | _ :: l1, x, l2 => getD_append_cons l1 x l2

/-- `metaEndPos` is the end offset of the last entry (or the start position
for an empty list). -/
theorem metaEndPos_eq : ∀ (ms : List ItemBlockMetadata) (pos : Nat),
    metaEndPos pos ms
      = match ms.getLast? with
        | some m => m.endOffset
        | none => pos
  | [], _ => rfl
  | m :: ms, pos => by
    rw [show metaEndPos pos (m :: ms) = metaEndPos m.endOffset ms from rfl]
    rw [metaEndPos_eq ms m.endOffset]
    cases ms with
    | nil => rfl
    | cons m2 ms2 =>
      rw [List.getLast?_cons_cons]
      cases hl : (m2 :: ms2).getLast? with
      | none =>
        rw [List.getLast?_eq_none_iff] at hl
        exact List.noConfusion hl
      | some mm => rfl

/-- An item block's end offset is the cursor position after streaming its
metadata list. -/
theorem item_endOff_eq (b : ItemBlock) :
    (PieceBlock.item b).endOff = metaEndPos b.pieceOffset b.meta := by
  rw [metaEndPos_eq]
  rfl

/-- A metadata chain only moves the cursor forward. -/
theorem metaChain_le_end : ∀ (ms : List ItemBlockMetadata) (pos o : Nat),
    metaChainAt pos o ms → pos ≤ metaEndPos pos ms
  | [], pos, _, _ => Nat.le_refl pos
  | m :: ms, pos, o, h => by
    obtain ⟨h1, h2, h3, h4⟩ := h
    have htail := metaChain_le_end ms m.endOffset (o + m.itemLength) h4
    have hle : pos ≤ m.endOffset := by
      simp only [ItemBlockMetadata.endOffset, h1]
      omega
    exact le_trans hle htail

/-- A well-formed block's end offset is at or past its start offset. -/
theorem endOff_ge (b : PieceBlock) (h : b.wf) : b.getPieceOffset ≤ b.endOff := by
  cases b with
  | raw rb =>
    simp only [PieceBlock.getPieceOffset, PieceBlock.endOff, RawBlock.endOffset]
    omega
  | item ib =>
    obtain ⟨it, hit, hne, hchain, hfit, hcont⟩ := h
    rw [item_endOff_eq]
    exact metaChain_le_end ib.meta ib.pieceOffset ib.headItemOffset hchain


/-- Streaming the remaining metadata entries of an item run: positioned at
entry `mdone.length` with the stream closed or open at item offset `o`,
`mrest.length` reads emit the remaining entries and leave the reader at the
next block boundary with the stream released. -/
theorem readAll_runTail (plen bid : Nat) (ib : ItemBlock) (it : Item)
    (hitem : ib.item = some it) :
    ∀ (mrest mdone : List ItemBlockMetadata) (pos o : Nat) (pr : PieceReader),
    mrest ≠ [] →
    pr.blockID = bid →
    bid < pr.blocks.length →
    pr.blocks.getD bid default = .item ib →
    ib.meta = mdone ++ mrest →
    pr.innerBlockID = mdone.length →
    pr.pos = pos →
    pr.blockOffset = 0 →
    pr.header.length ≤ pos →
    (pr.reader = none ∨ pr.reader = some (((ib.sourceHandler.content it.path).drop o).take
      (it.size - o))) →
    metaChainAt pos o mrest →
    (∀ m ∈ mrest, m.itemOffset + m.itemLength ≤ it.size) →
    it.size ≤ (ib.sourceHandler.content it.path).length →
    (∀ m ∈ mrest, ItemBlockMetadata.length m < plen) →
    (readAll plen mrest.length pr).out
        = (mrest.map (metaBytes (ib.sourceHandler.content it.path))).flatten
    ∧ (readAll plen mrest.length pr).state
        = boundary pr.blocks pr.header (bid + 1) (metaEndPos pos mrest)
    ∧ (readAll plen mrest.length pr).stop = .fuel := by
  intro mrest
  induction mrest with
  | nil =>
    intro mdone pos o pr hne
    exact absurd rfl hne
  | cons m mtail ih =>
    intro mdone pos o pr hne hbid hblt hget hmeta hinner hpos hbo hhdr hrdr hchain hfit
      hcont hplen
    obtain ⟨hmpos, hmoff, hmlen, hchain2⟩ := hchain
    have hdis : read pr plen = readItem pr plen ib [] := by
      rw [read_dispatch pr plen (by rw [hbid]; exact hblt) (by rw [hpos]; exact hhdr)]
      rw [hbid, hget]
    have hrdr2 : pr.reader = none ∨ pr.reader
        = some (((ib.sourceHandler.content it.path).drop m.itemOffset).take
          (it.size - m.itemOffset)) := by
      rw [hmoff]
      exact hrdr
    have hri := readItem_run pr plen ib it mdone mtail m [] hitem hmeta hinner
      (by rw [hpos, hmpos]) hbo hrdr2 hmlen (hfit m (List.mem_cons_self m mtail)) hcont
      (by simpa using hplen m (List.mem_cons_self m mtail))
    have hr := hdis.trans hri
    cases mtail with
    | nil =>
      have hL : (([m] : List ItemBlockMetadata)).length = 0 + 1 := rfl
      rw [hL, readAll_ok_step plen 0 pr _ _ _ hr]
      refine ⟨?_, ?_, ?_⟩ <;>
        simp [readAll, boundary, metaEndPos, hbid, hbo]
    | cons m2 mtail2 =>
      rw [if_neg (show ¬ (List.isEmpty (m2 :: mtail2) = true) by simp),
        if_neg (show ¬ (List.isEmpty (m2 :: mtail2) = true) by simp)] at hr
      obtain ⟨ho, hs, hp⟩ := ih (mdone ++ [m]) m.endOffset (o + m.itemLength)
        { pr with
            pos := m.endOffset
            innerBlockID := pr.innerBlockID + 1
            reader := some (((ib.sourceHandler.content it.path).drop
                (m.itemOffset + m.itemLength)).take
              (it.size - (m.itemOffset + m.itemLength))) }
        (List.cons_ne_nil m2 mtail2) hbid hblt hget
        (by rw [hmeta]; simp)
        (by simp [hinner])
        rfl hbo
        (by
          show pr.header.length ≤ m.endOffset
          simp only [ItemBlockMetadata.endOffset]
          omega)
        (Or.inr (by rw [← hmoff]))
        hchain2
        (fun m3 hm3 => hfit m3 (List.mem_cons_of_mem _ hm3))
        hcont
        (fun m3 hm3 => hplen m3 (List.mem_cons_of_mem _ hm3))
      have hL : (m :: m2 :: mtail2).length = (m2 :: mtail2).length + 1 := rfl
      rw [hL, readAll_ok_step plen (m2 :: mtail2).length pr _ _ _ hr]
      refine ⟨?_, ?_, ?_⟩
      · rw [ho]
        simp
      · rw [hs]
        rfl
      · exact hp

/-- From a boundary state at a well-formed block, `blockSeg` reads stream
the whole block and reach the next block boundary. -/
theorem readAll_oneBlock (plen : Nat) (blocks : List PieceBlock) (hdr : Bytes)
    (bid : Nat) (b : PieceBlock) (pos : Nat)
    (hbid : bid < blocks.length)
    (hget : blocks.getD bid default = b)
    (hoff : b.getPieceOffset = pos)
    (hwf : b.wf)
    (hhdr : hdr.length ≤ pos)
    (hfits : b.fitsBuf hdr.length plen) :
    (readAll plen (blockSeg b) (boundary blocks hdr bid pos)).out = b.serialized
    ∧ (readAll plen (blockSeg b) (boundary blocks hdr bid pos)).state
        = boundary blocks hdr (bid + 1) b.endOff
    ∧ (readAll plen (blockSeg b) (boundary blocks hdr bid pos)).stop = .fuel := by
  cases b with
  | raw rb =>
    have hf : hdr.length + rb.length < plen := hfits
    have hoff2 : rb.pieceOffset = pos := hoff
    have hrw := readRaw_run (boundary blocks hdr bid pos) plen rb [] hoff2.symm
      (by simp only [List.length_nil]; omega)
    have hr : read (boundary blocks hdr bid pos) plen
        = ⟨[] ++ (rb.varint ++ rb.cid ++ rb.blockData),
           { boundary blocks hdr bid pos with
               pos := rb.endOffset
               blockID := (boundary blocks hdr bid pos).blockID + 1
               innerBlockID := 0 },
           [], .ok⟩ := by
      rw [read_dispatch (boundary blocks hdr bid pos) plen hbid hhdr]
      have hget2 : (boundary blocks hdr bid pos).blocks.getD
          (boundary blocks hdr bid pos).blockID default = PieceBlock.raw rb := hget
      rw [hget2]
      exact hrw
    have hseg : blockSeg (PieceBlock.raw rb) = 0 + 1 := rfl
    rw [hseg, readAll_ok_step plen 0 _ _ _ _ hr]
    refine ⟨?_, ?_, ?_⟩ <;>
      simp [readAll, boundary, PieceBlock.serialized, PieceBlock.endOff]
  | item ib =>
    obtain ⟨it, hit, hmne, hmchain, hmfit, hmcont⟩ := hwf
    have hoff2 : ib.pieceOffset = pos := hoff
    have hf : ∀ m ∈ ib.meta, hdr.length + ItemBlockMetadata.length m < plen := hfits
    have hone := readAll_runTail plen bid ib it hit ib.meta [] pos ib.headItemOffset
      (boundary blocks hdr bid pos) hmne rfl hbid hget (List.nil_append _).symm rfl rfl rfl
      hhdr (Or.inl rfl) (hoff2 ▸ hmchain) hmfit hmcont
      (fun m hm => by have := hf m hm; omega)
    have hic : ib.itemContent = ib.sourceHandler.content it.path := by
      simp [ItemBlock.itemContent, hit]
    have hseg : blockSeg (PieceBlock.item ib) = ib.meta.length := rfl
    refine ⟨?_, ?_, ?_⟩
    · rw [hseg, hone.1]
      simp [PieceBlock.serialized, hic]
    · rw [hseg, hone.2.1]
      simp [boundary, item_endOff_eq, hoff2]
    · rw [hseg]
      exact hone.2.2


/-- Streaming a chained suffix of the block list from a boundary state:
`segCount` reads emit every block and leave the reader past the last
block. -/
theorem readAll_blocks (plen : Nat) (blocks : List PieceBlock) (hdr : Bytes) :
    ∀ (rest done : List PieceBlock) (pos : Nat),
    blocks = done ++ rest →
    blocksChainAt pos rest →
    hdr.length ≤ pos →
    (∀ b ∈ rest, b.fitsBuf hdr.length plen) →
    (readAll plen (segCount rest) (boundary blocks hdr done.length pos)).out
        = serializeBlocks rest
    ∧ (readAll plen (segCount rest) (boundary blocks hdr done.length pos)).state
        = boundary blocks hdr blocks.length (chainEnd pos rest)
    ∧ (readAll plen (segCount rest) (boundary blocks hdr done.length pos)).stop = .fuel := by
  intro rest
  induction rest with
  | nil =>
    intro done pos heq hchain hhdr hfits
    have hlen : done.length = blocks.length := by rw [heq]; simp
    refine ⟨rfl, ?_, rfl⟩
    rw [hlen]
    rfl
  | cons b rest2 ih =>
    intro done pos heq hchain hhdr hfits
    obtain ⟨hoff, hwf, hchain2⟩ := hchain
    have hbid : done.length < blocks.length := by
      rw [heq, List.length_append, List.length_cons]
      omega
    have hget : blocks.getD done.length default = b := by
      rw [heq]
      exact getD_append_cons done b rest2
    have hone := readAll_oneBlock plen blocks hdr done.length b pos hbid hget hoff hwf hhdr
      (hfits b (List.mem_cons_self b rest2))
    have hrest := ih (done ++ [b]) b.endOff
      (by rw [heq]; simp)
      hchain2
      (le_trans hhdr (hoff ▸ endOff_ge b hwf))
      (fun b2 hb2 => hfits b2 (List.mem_cons_of_mem _ hb2))
    have hlen1 : (done ++ [b]).length = done.length + 1 := by simp
    rw [hlen1] at hrest
    obtain ⟨hr1, hr2, hr3⟩ := hrest
    have hsc : segCount (b :: rest2) = blockSeg b + segCount rest2 := by
      simp [segCount]
    obtain ⟨ha1, ha2, ha3⟩ := readAll_add plen (blockSeg b) (segCount rest2)
      (boundary blocks hdr done.length pos) hone.2.2
    rw [hone.1, hone.2.1] at ha1
    rw [hone.2.1] at ha2 ha3
    rw [hsc]
    refine ⟨?_, ?_, ?_⟩
    · rw [ha1, hr1]
      simp [serializeBlocks]
    · rw [ha2, hr2]
      rfl
    · rw [ha3]
      exact hr3


/-- Driving a fresh reader over a well-formed chained block list with a
roomy buffer: `segCount + 1` reads emit the header followed by every
block's bytes and then report `io.EOF`. -/
theorem readAll_full (plen : Nat) (blocks : List PieceBlock) (hdr : Bytes)
    (hne : blocks ≠ [])
    (hchain : blocksChainAt hdr.length blocks)
    (hfits : ∀ b ∈ blocks, b.fitsBuf hdr.length plen) :
    (readAll plen (segCount blocks + 1) (boundary blocks hdr 0 0)).out
        = hdr ++ serializeBlocks blocks
    ∧ (readAll plen (segCount blocks + 1) (boundary blocks hdr 0 0)).stop = .eof := by
  cases blocks with
  | nil => exact absurd rfl hne
  | cons b0 rest =>
    obtain ⟨hoff0, hwf0, hchain1⟩ := hchain
    cases b0 with
    | raw rb =>
      have hoff2 : rb.pieceOffset = hdr.length := hoff0
      have hf : hdr.length + rb.length < plen := hfits _ (List.mem_cons_self _ _)
      have hplen0 : hdr.length < plen := by omega
      have hstart := read_at_start (boundary (PieceBlock.raw rb :: rest) hdr 0 0) plen
        (by simp [boundary]) rfl hplen0
      have hget0 : (boundary (PieceBlock.raw rb :: rest) hdr 0 0).blocks.getD
          (boundary (PieceBlock.raw rb :: rest) hdr 0 0).blockID default
          = PieceBlock.raw rb := rfl
      have hrr := readRaw_run
        { boundary (PieceBlock.raw rb :: rest) hdr 0 0 with
            pos := (boundary (PieceBlock.raw rb :: rest) hdr 0 0).header.length }
        plen rb ((boundary (PieceBlock.raw rb :: rest) hdr 0 0).header)
        hoff2.symm hf
      have hr : read (boundary (PieceBlock.raw rb :: rest) hdr 0 0) plen
          = ⟨hdr ++ (rb.varint ++ rb.cid ++ rb.blockData),
             boundary (PieceBlock.raw rb :: rest) hdr 1 rb.endOffset, [], .ok⟩ :=
        hstart.trans (by rw [hget0]; exact hrr)
      have hfuel : segCount (PieceBlock.raw rb :: rest) + 1 = (segCount rest + 1) + 1 := by
        simp only [segCount, List.map_cons, List.sum_cons, blockSeg]
        omega
      rw [hfuel, readAll_ok_step plen (segCount rest + 1) _ _ _ _ hr]
      obtain ⟨hb1, hb2, hb3⟩ := readAll_blocks plen (PieceBlock.raw rb :: rest) hdr rest
        [PieceBlock.raw rb] rb.endOffset rfl hchain1
        (by simp only [RawBlock.endOffset]; omega)
        (fun b2 hb => hfits b2 (List.mem_cons_of_mem _ hb))
      have hL1 : ([PieceBlock.raw rb] : List PieceBlock).length = 1 := rfl
      rw [hL1] at hb1 hb2 hb3
      obtain ⟨ha1, ha2, ha3⟩ := readAll_add plen (segCount rest) 1
        (boundary (PieceBlock.raw rb :: rest) hdr 1 rb.endOffset) hb3
      rw [hb2] at ha1 ha2 ha3
      rw [hb1] at ha1
      have heof1 : readAll plen 1
          (boundary (PieceBlock.raw rb :: rest) hdr (PieceBlock.raw rb :: rest).length
            (chainEnd rb.endOffset rest))
          = ⟨[], boundary (PieceBlock.raw rb :: rest) hdr (PieceBlock.raw rb :: rest).length
              (chainEnd rb.endOffset rest), [], .eof⟩ :=
        readAll_eofStep plen 0 _ (Nat.le_refl _)
      rw [heof1] at ha1 ha3
      constructor
      · dsimp only
        rw [ha1]
        simp [serializeBlocks, PieceBlock.serialized]
      · dsimp only
        rw [ha3]
    | item ib =>
      obtain ⟨it, hit, hmne, hmchain0, hmfit, hmcont⟩ := hwf0
      have hoff2 : ib.pieceOffset = hdr.length := hoff0
      have hfm : ∀ m ∈ ib.meta, hdr.length + ItemBlockMetadata.length m < plen :=
        hfits _ (List.mem_cons_self _ _)
      have hic : ib.itemContent = ib.sourceHandler.content it.path := by
        simp [ItemBlock.itemContent, hit]
      cases hm : ib.meta with
      | nil => exact absurd hm hmne
      | cons m0 mtail =>
        have hhio : ib.headItemOffset = m0.itemOffset := by
          unfold ItemBlock.headItemOffset
          rw [hm]
        rw [hm, hhio] at hmchain0
        obtain ⟨hm0pos, hm0off, hm0len, hmchainT⟩ := hmchain0
        have hm0mem : m0 ∈ ib.meta := by rw [hm]; exact List.mem_cons_self m0 mtail
        have hplen0 : hdr.length < plen := by
          have := hfm m0 hm0mem
          omega
        have hstart := read_at_start (boundary (PieceBlock.item ib :: rest) hdr 0 0) plen
          (by simp [boundary]) rfl hplen0
        have hget0 : (boundary (PieceBlock.item ib :: rest) hdr 0 0).blocks.getD
            (boundary (PieceBlock.item ib :: rest) hdr 0 0).blockID default
            = PieceBlock.item ib := rfl
        have hri := readItem_run
          { boundary (PieceBlock.item ib :: rest) hdr 0 0 with
              pos := (boundary (PieceBlock.item ib :: rest) hdr 0 0).header.length }
          plen ib it [] mtail m0
          ((boundary (PieceBlock.item ib :: rest) hdr 0 0).header)
          hit (by simp [hm]) rfl (hm0pos.trans hoff2).symm rfl (Or.inl rfl)
          hm0len (hmfit m0 hm0mem) hmcont
          (by
            have := hfm m0 hm0mem
            simpa [boundary] using this)
        cases mtail with
        | nil =>
          have hr : read (boundary (PieceBlock.item ib :: rest) hdr 0 0) plen
              = ⟨hdr ++ metaBytes (ib.sourceHandler.content it.path) m0,
                 boundary (PieceBlock.item ib :: rest) hdr 1 m0.endOffset,
                 [Event.openStream it.path m0.itemOffset (it.size - m0.itemOffset),
                  Event.streamRead m0.itemLength (m0.cidOffset + m0.cid.length)
                    (plen - ((hdr ++ m0.varint) ++ m0.cid).length),
                  Event.closeStream],
                 .ok⟩ :=
            hstart.trans (by rw [hget0]; exact hri)
          have hfuel : segCount (PieceBlock.item ib :: rest) + 1 = (segCount rest + 1) + 1 := by
            simp only [segCount, List.map_cons, List.sum_cons, blockSeg, hm,
              List.length_cons, List.length_nil]
            omega
          rw [hfuel, readAll_ok_step plen (segCount rest + 1) _ _ _ _ hr]
          have hend : PieceBlock.endOff (PieceBlock.item ib) = m0.endOffset := by
            rw [item_endOff_eq, hm]
            rfl
          rw [hend] at hchain1
          obtain ⟨hb1, hb2, hb3⟩ := readAll_blocks plen (PieceBlock.item ib :: rest) hdr rest
            [PieceBlock.item ib] m0.endOffset rfl hchain1
            (by
              have h1 : m0.pieceOffset = hdr.length := hm0pos.trans hoff2
              simp only [ItemBlockMetadata.endOffset]
              omega)
            (fun b2 hb => hfits b2 (List.mem_cons_of_mem _ hb))
          have hL1 : ([PieceBlock.item ib] : List PieceBlock).length = 1 := rfl
          rw [hL1] at hb1 hb2 hb3
          obtain ⟨ha1, ha2, ha3⟩ := readAll_add plen (segCount rest) 1
            (boundary (PieceBlock.item ib :: rest) hdr 1 m0.endOffset) hb3
          rw [hb2] at ha1 ha2 ha3
          rw [hb1] at ha1
          have heof1 : readAll plen 1
              (boundary (PieceBlock.item ib :: rest) hdr (PieceBlock.item ib :: rest).length
                (chainEnd m0.endOffset rest))
              = ⟨[], boundary (PieceBlock.item ib :: rest) hdr
                  (PieceBlock.item ib :: rest).length (chainEnd m0.endOffset rest),
                 [], .eof⟩ :=
            readAll_eofStep plen 0 _ (Nat.le_refl _)
          rw [heof1] at ha1 ha3
          constructor
          · dsimp only
            rw [ha1]
            simp [serializeBlocks, PieceBlock.serialized, hic, hm]
          · dsimp only
            rw [ha3]
        | cons m1 mtail2 =>
          have hr : read (boundary (PieceBlock.item ib :: rest) hdr 0 0) plen
              = ⟨hdr ++ metaBytes (ib.sourceHandler.content it.path) m0,
                 midRun (PieceBlock.item ib :: rest) hdr 0 1 m0.endOffset
                   (((ib.sourceHandler.content it.path).drop
                       (m0.itemOffset + m0.itemLength)).take
                     (it.size - (m0.itemOffset + m0.itemLength))),
                 [Event.openStream it.path m0.itemOffset (it.size - m0.itemOffset),
                  Event.streamRead m0.itemLength (m0.cidOffset + m0.cid.length)
                    (plen - ((hdr ++ m0.varint) ++ m0.cid).length)],
                 .ok⟩ :=
            hstart.trans (by rw [hget0]; exact hri)
          obtain ⟨ht1, ht2, ht3⟩ := readAll_runTail plen 0 ib it hit (m1 :: mtail2) [m0]
            m0.endOffset (m0.itemOffset + m0.itemLength)
            (midRun (PieceBlock.item ib :: rest) hdr 0 1 m0.endOffset
              (((ib.sourceHandler.content it.path).drop
                  (m0.itemOffset + m0.itemLength)).take
                (it.size - (m0.itemOffset + m0.itemLength))))
            (List.cons_ne_nil _ _) rfl (by simp [midRun]) rfl (by simp [hm]) rfl rfl rfl
            (by
              have h1 : m0.pieceOffset = hdr.length := hm0pos.trans hoff2
              show hdr.length ≤ m0.endOffset
              simp only [ItemBlockMetadata.endOffset]
              omega)
            (Or.inr rfl)
            hmchainT
            (fun m hmem => hmfit m (by rw [hm]; exact List.mem_cons_of_mem _ hmem))
            hmcont
            (fun m hmem => by
              have := hfm m (by rw [hm]; exact List.mem_cons_of_mem _ hmem)
              omega)
          have ht2b : (readAll plen (m1 :: mtail2).length
              (midRun (PieceBlock.item ib :: rest) hdr 0 1 m0.endOffset
                (((ib.sourceHandler.content it.path).drop
                    (m0.itemOffset + m0.itemLength)).take
                  (it.size - (m0.itemOffset + m0.itemLength))))).state
              = boundary (PieceBlock.item ib :: rest) hdr 1
                (metaEndPos m0.endOffset (m1 :: mtail2)) :=
            ht2.trans rfl
          have hfuel : segCount (PieceBlock.item ib :: rest) + 1
              = ((m1 :: mtail2).length + (segCount rest + 1)) + 1 := by
            simp only [segCount, List.map_cons, List.sum_cons, blockSeg, hm,
              List.length_cons]
            omega
          rw [hfuel, readAll_ok_step plen ((m1 :: mtail2).length + (segCount rest + 1))
            _ _ _ _ hr]
          obtain ⟨hc1, hc2, hc3⟩ := readAll_add plen ((m1 :: mtail2).length)
            (segCount rest + 1)
            (midRun (PieceBlock.item ib :: rest) hdr 0 1 m0.endOffset
              (((ib.sourceHandler.content it.path).drop
                  (m0.itemOffset + m0.itemLength)).take
                (it.size - (m0.itemOffset + m0.itemLength))))
            ht3
          rw [ht1, ht2b] at hc1
          rw [ht2b] at hc2 hc3
          have hend : PieceBlock.endOff (PieceBlock.item ib)
              = metaEndPos m0.endOffset (m1 :: mtail2) := by
            rw [item_endOff_eq, hm]
            rfl
          rw [hend] at hchain1
          obtain ⟨hb1, hb2, hb3⟩ := readAll_blocks plen (PieceBlock.item ib :: rest) hdr rest
            [PieceBlock.item ib] (metaEndPos m0.endOffset (m1 :: mtail2)) rfl hchain1
            (by
              have h1 : m0.pieceOffset = hdr.length := hm0pos.trans hoff2
              have h2 := metaChain_le_end (m1 :: mtail2) m0.endOffset
                (m0.itemOffset + m0.itemLength) hmchainT
              have h3 : hdr.length ≤ m0.endOffset := by
                simp only [ItemBlockMetadata.endOffset]
                omega
              exact le_trans h3 h2)
            (fun b2 hb => hfits b2 (List.mem_cons_of_mem _ hb))
          have hL1 : ([PieceBlock.item ib] : List PieceBlock).length = 1 := rfl
          rw [hL1] at hb1 hb2 hb3
          obtain ⟨ha1, ha2, ha3⟩ := readAll_add plen (segCount rest) 1
            (boundary (PieceBlock.item ib :: rest) hdr 1
              (metaEndPos m0.endOffset (m1 :: mtail2))) hb3
          rw [hb2] at ha1 ha2 ha3
          rw [hb1] at ha1
          have heof1 : readAll plen 1
              (boundary (PieceBlock.item ib :: rest) hdr (PieceBlock.item ib :: rest).length
                (chainEnd (metaEndPos m0.endOffset (m1 :: mtail2)) rest))
              = ⟨[], boundary (PieceBlock.item ib :: rest) hdr
                  (PieceBlock.item ib :: rest).length
                  (chainEnd (metaEndPos m0.endOffset (m1 :: mtail2)) rest), [], .eof⟩ :=
            readAll_eofStep plen 0 _ (Nat.le_refl _)
          rw [heof1] at ha1 ha3
          rw [ha1] at hc1
          rw [ha3] at hc3
          constructor
          · dsimp only
            rw [hc1]
            simp [serializeBlocks, PieceBlock.serialized, hic, hm]
          · dsimp only
            rw [hc3]


/-- A plan through the sanitize loop has contiguous adjacent candidates. -/
theorem sanitizeLoop_chain : ∀ (cbs : List CarBlock),
    sanitizeLoop cbs = .ok () → List.Chain' contigStep cbs := by
  intro cbs
  induction cbs with
  | nil =>
    intro _
    exact List.chain'_nil
  | cons a rest ih =>
    intro h
    cases rest with
    | nil => exact List.chain'_singleton a
    | cons b rest2 =>
      rw [List.chain'_cons]
      unfold sanitizeLoop at h
      split at h
      · exact Except.noConfusion h
      · split at h
        · exact Except.noConfusion h
        · rename_i hc _
          exact ⟨not_not.mp hc, ih h⟩

/-- What acceptance by `NewPieceReader` guarantees about the plan: nonempty,
header-aligned first candidate, footer-aligned last candidate, and a clean
sanitize pass. -/
theorem newPieceReader_accepts (car : Car) (cbs : List CarBlock)
    (resolver : HandlerResolver) (pr : PieceReader) (tr : List Source)
    (hok : newPieceReader car cbs resolver = .ok (pr, tr)) :
    cbs ≠ [] ∧
    (∀ a ∈ cbs.head?, a.carOffset = car.header.length) ∧
    (∀ a ∈ cbs.getLast?, a.carOffset + a.carBlockLength = car.fileSize) ∧
    sanitizeLoop cbs = .ok () := by
  unfold newPieceReader at hok
  cases cbs with
  | nil => exact Except.noConfusion hok
  | cons first rest =>
    dsimp only at hok
    split at hok
    · exact Except.noConfusion hok
    · rename_i hhead
      split at hok
      · exact Except.noConfusion hok
      · rename_i hfoot
        cases hsan : sanitizeLoop (first :: rest) with
        | error e =>
          rw [hsan] at hok
          exact Except.noConfusion hok
        | ok u =>
          cases u
          refine ⟨List.cons_ne_nil _ _, ?_, ?_, rfl⟩
          · intro a ha
            have ha2 : (first :: rest).head? = some a := ha
            rw [List.head?_cons] at ha2
            cases Option.some.inj ha2
            exact not_not.mp hhead
          · intro a ha
            have ha2 : (first :: rest).getLast? = some a := ha
            have hgl : (first :: rest).getLastD first = a := by
              rw [List.getLastD_eq_getLast?, ha2]
              rfl
            rw [← hgl]
            exact not_not.mp hfoot

/-- The sum of declared candidate lengths along a contiguous chain reaches
the last candidate's declared end. -/
theorem chain_sum : ∀ (cbs : List CarBlock) (a : CarBlock),
    List.Chain' contigStep (a :: cbs) →
    a.carOffset + ((a :: cbs).map CarBlock.carBlockLength).sum = lastEnd (a :: cbs) := by
  intro cbs
  induction cbs with
  | nil =>
    intro a _
    simp [lastEnd]
  | cons b rest ih =>
    intro a h
    rw [List.chain'_cons] at h
    obtain ⟨hab, h2⟩ := h
    have hab2 : a.carOffset + a.carBlockLength = b.carOffset := hab
    have hsum := ih b h2
    have hle : lastEnd (a :: b :: rest) = lastEnd (b :: rest) := by
      simp [lastEnd, List.getLast?_cons_cons]
    rw [hle, ← hsum, ← hab2]
    simp only [List.map_cons, List.sum_cons]
    omega

/-- A member's declared length is at most the sum of declared lengths. -/
theorem chain_le_sum (cbs : List CarBlock) (cb : CarBlock) (h : cb ∈ cbs) :
    cb.carBlockLength ≤ (cbs.map CarBlock.carBlockLength).sum :=
  List.single_le_sum (fun x _ => Nat.zero_le x) _ (List.mem_map_of_mem _ h)

/-- A readable candidate serializes to exactly its actual length. -/
theorem candidateBytes_length (resolver : HandlerResolver) (cb : CarBlock)
    (hread : itemReadable resolver cb) :
    (candidateBytes resolver cb).length = cbActualLen cb := by
  cases hraw : cb.rawBlock with
  | some data =>
    simp only [candidateBytes, candidatePayload, cbActualLen, cbPayload, hraw,
      List.length_append]
  | none =>
    obtain ⟨it, src, h, hi, hs, hh, hl1, hfit, hcont⟩ := hread hraw
    have hlen : (((h.content it.path).drop cb.itemOffset).take cb.blockLength).length
        = cb.blockLength := by
      simp only [List.length_take, List.length_drop]
      omega
    simp [candidateBytes, candidatePayload, cbActualLen, cbPayload, hraw, hi, hs, hh, hlen]
    omega


/-- Every candidate of a run (a non-inline head plus the continuing
candidates after it) is non-inline and carries the head's item and
source. -/
theorem run_facts_aux (it : Item) (src : Source) :
    ∀ (l : List CarBlock) (a : CarBlock),
    a.rawBlock = none → a.item = some it → a.source = some src →
    List.Chain' runStep (a :: l) →
    ∀ x ∈ a :: l.takeWhile (continuesRun it.id),
      x.rawBlock = none ∧ x.item = some it ∧ x.source = some src := by
  intro l
  induction l with
  | nil =>
    intro a hraw hi hs _ x hx
    simp only [List.takeWhile_nil] at hx
    rcases List.mem_singleton.mp hx with rfl
    exact ⟨hraw, hi, hs⟩
  | cons b l2 ih =>
    intro a hraw hi hs hchain x hx
    cases hc : continuesRun it.id b with
    | false =>
      rw [List.takeWhile_cons_of_neg (by simp [hc])] at hx
      rcases List.mem_singleton.mp hx with rfl
      exact ⟨hraw, hi, hs⟩
    | true =>
      have hbraw : b.rawBlock = none := by
        simp only [continuesRun, Bool.and_eq_true, Option.isNone_iff_eq_none] at hc
        exact hc.1
      obtain ⟨it2, hbitem, hbid⟩ : ∃ it2, b.item = some it2 ∧ it2.id = it.id := by
        simp only [continuesRun, Bool.and_eq_true] at hc
        cases hbi : b.item with
        | none =>
          rw [hbi] at hc
          simp at hc
        | some it2 =>
          rw [hbi] at hc
          exact ⟨it2, rfl, by simpa using hc.2⟩
      obtain ⟨hstep, hchain2⟩ := List.chain'_cons.mp hchain
      have hid : idOf b = idOf a := by
        simp [idOf, hbitem, hi, hbid]
      obtain ⟨hbi2, hbs2, hboff⟩ := hstep hraw hbraw hid
      have hbi3 : b.item = some it := by rw [hbi2, hi]
      have hbs3 : b.source = some src := by rw [hbs2, hs]
      rw [List.takeWhile_cons_of_pos hc] at hx
      rcases List.mem_cons.mp hx with rfl | hx2
      · exact ⟨hraw, hi, hs⟩
      · exact ih b hbraw hbi3 hbs3 hchain2 x hx2

/-- The metadata entries of a run chain in the piece and in the item. -/
theorem metaChain_of_run (resolver : HandlerResolver) (it : Item) :
    ∀ (run : List CarBlock) (pos o : Nat),
    (∀ x ∈ run, x.rawBlock = none ∧ x.item = some it) →
    (∀ x ∈ run, x.carBlockLength = cbActualLen x) →
    (∀ x ∈ run, itemReadable resolver x) →
    List.Chain' contigStep run →
    List.Chain' runStep run →
    (match run with | [] => True | cb :: _ => cb.carOffset = pos ∧ cb.itemOffset = o) →
    metaChainAt pos o (run.map metaOf) := by
  intro run
  induction run with
  | nil =>
    intro pos o _ _ _ _ _ _
    trivial
  | cons a rest ih =>
    intro pos o hfacts hlen hread hcontig hrun hhead
    obtain ⟨hapos, haoff⟩ := hhead
    have haraw : a.rawBlock = none := (hfacts a (List.mem_cons_self _ _)).1
    obtain ⟨it1, src1, h1, hi1, hs1, hh1, hl1, hfit1, hcont1⟩ :=
      hread a (List.mem_cons_self _ _) haraw
    refine ⟨?_, ?_, ?_, ?_⟩
    · simpa [metaOf] using hapos
    · simpa [metaOf] using haoff
    · simpa [metaOf] using hl1
    · cases rest with
      | nil => trivial
      | cons b rest2 =>
        obtain ⟨habc, hcontig2⟩ := List.chain'_cons.mp hcontig
        obtain ⟨habr, hrun2⟩ := List.chain'_cons.mp hrun
        have hbraw : b.rawBlock = none := (hfacts b (by simp)).1
        have hbi : b.item = some it := (hfacts b (by simp)).2
        have hai : a.item = some it := (hfacts a (by simp)).2
        have hid : idOf b = idOf a := by simp [idOf, hbi, hai]
        obtain ⟨hbitem, hbsrc, hboff⟩ := habr haraw hbraw hid
        have habc2 : a.carOffset + a.carBlockLength = b.carOffset := habc
        have hlena : a.carBlockLength = cbActualLen a := hlen a (by simp)
        have hstep : b.carOffset = (metaOf a).endOffset := by
          simp only [cbActualLen, cbPayload, haraw] at hlena
          simp only [metaOf, ItemBlockMetadata.endOffset]
          omega
        have htail := ih (metaOf a).endOffset (o + a.blockLength)
          (fun x hx => hfacts x (List.mem_cons_of_mem _ hx))
          (fun x hx => hlen x (List.mem_cons_of_mem _ hx))
          (fun x hx => hread x (List.mem_cons_of_mem _ hx))
          hcontig2 hrun2
          (by
            refine ⟨hstep, ?_⟩
            rw [hboff, haoff])
        exact htail

/-- The cursor position after streaming a run's metadata is the run's last
declared candidate end. -/
theorem metaEndPos_run :
    ∀ (run : List CarBlock) (pos : Nat) (d : CarBlock),
    (∀ x ∈ run, x.rawBlock = none) →
    (∀ x ∈ run, x.carBlockLength = cbActualLen x) →
    run.getLast? = some d →
    metaEndPos pos (run.map metaOf) = d.carOffset + d.carBlockLength := by
  intro run pos d hraw hlen hlast
  have hmem : d ∈ run := List.mem_of_getLast?_eq_some hlast
  rw [metaEndPos_eq, List.getLast?_map, hlast]
  show (metaOf d).endOffset = d.carOffset + d.carBlockLength
  have h1 : d.carBlockLength = cbActualLen d := hlen d hmem
  have h2 : d.rawBlock = none := hraw d hmem
  simp only [cbActualLen, cbPayload, h2] at h1
  simp only [metaOf, ItemBlockMetadata.endOffset]
  omega


/-- The folded block list of a contiguous, readable, run-coherent plan is a
well-formed chained block list. -/
theorem specFold_chain (resolver : HandlerResolver) :
    ∀ (fuel : Nat) (cbs : List CarBlock) (pos : Nat), cbs.length < fuel →
    (∀ cb ∈ cbs, cb.carBlockLength = cbActualLen cb) →
    (∀ cb ∈ cbs, itemReadable resolver cb) →
    List.Chain' contigStep cbs →
    List.Chain' runStep cbs →
    (match cbs with | [] => True | cb :: _ => cb.carOffset = pos) →
    blocksChainAt pos (specFoldAux resolver fuel cbs) := by
  intro fuel
  induction fuel with
  | zero =>
    intro cbs pos h
    omega
  | succ f ih =>
    intro cbs pos hlt hlen hread hcontig hrun hhead
    cases cbs with
    | nil =>
      simp only [specFoldAux]
      trivial
    | cons cb rest =>
      cases hraw : cb.rawBlock with
      | some data =>
        simp only [specFoldAux]
        rw [hraw]
        dsimp only
        refine ⟨hhead, trivial, ?_⟩
        have hlencb : cb.carBlockLength = cbActualLen cb := hlen cb (by simp)
        simp only [cbActualLen, cbPayload, hraw] at hlencb
        refine ih rest _ (by simp at hlt; omega)
          (fun x hx => hlen x (List.mem_cons_of_mem _ hx))
          (fun x hx => hread x (List.mem_cons_of_mem _ hx))
          hcontig.tail hrun.tail ?_
        cases rest with
        | nil => trivial
        | cons b r2 =>
          have habc : cb.carOffset + cb.carBlockLength = b.carOffset :=
            (List.chain'_cons.mp hcontig).1
          show b.carOffset = _
          simp only [PieceBlock.endOff, RawBlock.endOffset]
          omega
      | none =>
        obtain ⟨it, src, h, hi, hs, hh, hl1, hfit1, hcont1⟩ := hread cb (by simp) hraw
        have hidcb : idOf cb = it.id := by simp [idOf, hi]
        simp only [specFoldAux]
        rw [hraw]
        dsimp only
        rw [hidcb]
        have hsplitEq : cb :: rest
            = (cb :: rest.takeWhile (continuesRun it.id))
              ++ rest.dropWhile (continuesRun it.id) := by
          rw [List.cons_append, List.takeWhile_append_dropWhile]
        have hcontig2 := hcontig
        have hrun2 := hrun
        rw [hsplitEq] at hcontig2 hrun2
        obtain ⟨hcL, hcR, hcX⟩ := List.chain'_append.mp hcontig2
        obtain ⟨hrL, hrR, hrX⟩ := List.chain'_append.mp hrun2
        have hfacts := run_facts_aux it src rest cb hraw hi hs hrun
        have hrunsub : ∀ x ∈ cb :: rest.takeWhile (continuesRun it.id), x ∈ cb :: rest := by
          intro x hx
          rcases List.mem_cons.mp hx with rfl | hx2
          · exact List.mem_cons_self _ _
          · exact List.mem_cons_of_mem _ ((List.takeWhile_sublist _).subset hx2)
        have hdropsub : ∀ x ∈ rest.dropWhile (continuesRun it.id), x ∈ cb :: rest :=
          fun x hx => List.mem_cons_of_mem _ ((List.dropWhile_sublist _).subset hx)
        have hhd : headHandler resolver cb = h := by
          simp [headHandler, hs, hh]
        refine ⟨hhead, ?_, ?_⟩
        · refine ⟨it, hi, by simp, ?_, ?_, ?_⟩
          · exact metaChain_of_run resolver it (cb :: rest.takeWhile (continuesRun it.id))
              cb.carOffset cb.itemOffset
              (fun x hx => ⟨(hfacts x hx).1, (hfacts x hx).2.1⟩)
              (fun x hx => hlen x (hrunsub x hx))
              (fun x hx => hread x (hrunsub x hx))
              hcL hrL ⟨rfl, rfl⟩
          · intro m hm
            rcases List.mem_map.mp hm with ⟨x, hx, rfl⟩
            have hxraw : x.rawBlock = none := (hfacts x hx).1
            have hxit : x.item = some it := (hfacts x hx).2.1
            obtain ⟨itx, srcx, hx2, hxi, hxs, hxh, hxl, hxfit, hxcont⟩ :=
              hread x (hrunsub x hx) hxraw
            have : itx = it := by
              rw [hxi] at hxit
              exact Option.some.inj hxit
            subst this
            exact hxfit
          · show it.size ≤ ((headHandler resolver cb).content it.path).length
            rw [hhd]
            exact hcont1
        · cases hgl : (cb :: rest.takeWhile (continuesRun it.id)).getLast? with
          | none =>
            rw [List.getLast?_eq_none_iff] at hgl
            exact List.noConfusion hgl
          | some e =>
            refine ih (rest.dropWhile (continuesRun it.id)) _
              (by
                have hle := (List.dropWhile_sublist (l := rest)
                  (continuesRun it.id)).length_le
                simp at hlt
                omega)
              (fun x hx => hlen x (hdropsub x hx))
              (fun x hx => hread x (hdropsub x hx))
              hcR hrR ?_
            cases hdw : rest.dropWhile (continuesRun it.id) with
            | nil => trivial
            | cons d r2 =>
              have hcross : contigStep e d := hcX e (by rw [hgl]; rfl) d (by rw [hdw]; rfl)
              have hcross2 : e.carOffset + e.carBlockLength = d.carOffset := hcross
              show d.carOffset = _
              rw [item_endOff_eq]
              dsimp only
              rw [metaEndPos_run (cb :: rest.takeWhile (continuesRun it.id)) cb.carOffset e
                (fun x hx => (hfacts x hx).1)
                (fun x hx => hlen x (hrunsub x hx))
                hgl]
              omega


/-- `serializeBlocks` distributes over cons. -/
theorem serializeBlocks_cons (b : PieceBlock) (bs : List PieceBlock) :
    serializeBlocks (b :: bs) = b.serialized ++ serializeBlocks bs := by
  simp [serializeBlocks]

/-- The folded block list serializes to the candidate bytes in order. -/
theorem specFold_serialize (resolver : HandlerResolver) :
    ∀ (fuel : Nat) (cbs : List CarBlock), cbs.length < fuel →
    (∀ cb ∈ cbs, itemReadable resolver cb) →
    List.Chain' runStep cbs →
    serializeBlocks (specFoldAux resolver fuel cbs)
      = (cbs.map (candidateBytes resolver)).flatten := by
  intro fuel
  induction fuel with
  | zero =>
    intro cbs h
    omega
  | succ f ih =>
    intro cbs hlt hread hrun
    cases cbs with
    | nil => simp [specFoldAux, serializeBlocks]
    | cons cb rest =>
      cases hraw : cb.rawBlock with
      | some data =>
        simp only [specFoldAux]
        rw [hraw]
        dsimp only
        rw [serializeBlocks_cons,
          ih rest (by simp at hlt; omega)
            (fun x hx => hread x (List.mem_cons_of_mem _ hx)) hrun.tail]
        simp [PieceBlock.serialized, candidateBytes, candidatePayload, hraw]
      | none =>
        obtain ⟨it, src, h, hi, hs, hh, hl1, hfit1, hcont1⟩ := hread cb (by simp) hraw
        have hidcb : idOf cb = it.id := by simp [idOf, hi]
        have hhd : headHandler resolver cb = h := by simp [headHandler, hs, hh]
        have hsplitEq : cb :: rest
            = (cb :: rest.takeWhile (continuesRun it.id))
              ++ rest.dropWhile (continuesRun it.id) := by
          rw [List.cons_append, List.takeWhile_append_dropWhile]
        have hrun2 := hrun
        rw [hsplitEq] at hrun2
        obtain ⟨hrL, hrR, hrX⟩ := List.chain'_append.mp hrun2
        have hfacts := run_facts_aux it src rest cb hraw hi hs hrun
        have hdropsub : ∀ x ∈ rest.dropWhile (continuesRun it.id), x ∈ cb :: rest :=
          fun x hx => List.mem_cons_of_mem _ ((List.dropWhile_sublist _).subset hx)
        simp only [specFoldAux]
        rw [hraw]
        dsimp only
        rw [hidcb]
        rw [serializeBlocks_cons,
          ih (rest.dropWhile (continuesRun it.id))
            (by
              have hle := (List.dropWhile_sublist (l := rest) (continuesRun it.id)).length_le
              simp at hlt
              omega)
            (fun x hx => hread x (hdropsub x hx)) hrR]
        rw [hsplitEq, List.map_append, List.flatten_append]
        simp only [PieceBlock.serialized, ItemBlock.itemContent]
        rw [hi, hhd]
        dsimp only
        rw [List.map_map]
        have hmapeq : (cb :: rest.takeWhile (continuesRun it.id)).map
              (metaBytes (h.content it.path) ∘ metaOf)
            = (cb :: rest.takeWhile (continuesRun it.id)).map (candidateBytes resolver) := by
          apply List.map_congr_left
          intro x hx
          have hxraw := (hfacts x hx).1
          have hxit := (hfacts x hx).2.1
          have hxsrc := (hfacts x hx).2.2
          simp [Function.comp, metaBytes, metaOf, candidateBytes, candidatePayload,
            hxraw, hxit, hxsrc, hh]
        rw [hmapeq]

/-- Each candidate contributes exactly one read segment to the folded
list. -/
theorem specFold_segCount (resolver : HandlerResolver) :
    ∀ (fuel : Nat) (cbs : List CarBlock), cbs.length < fuel →
    segCount (specFoldAux resolver fuel cbs) = cbs.length := by
  intro fuel
  induction fuel with
  | zero =>
    intro cbs h
    omega
  | succ f ih =>
    intro cbs hlt
    cases cbs with
    | nil => simp [specFoldAux, segCount]
    | cons cb rest =>
      cases hraw : cb.rawBlock with
      | some data =>
        simp only [specFoldAux]
        rw [hraw]
        dsimp only
        simp only [segCount, List.map_cons, List.sum_cons]
        have hihr : (List.map blockSeg (specFoldAux resolver f rest)).sum
            = segCount (specFoldAux resolver f rest) := rfl
        rw [hihr, ih rest (by simp at hlt; omega)]
        simp only [blockSeg, List.length_cons]
        omega
      | none =>
        simp only [specFoldAux]
        rw [hraw]
        dsimp only
        simp only [segCount, List.map_cons, List.sum_cons]
        have hihr : (List.map blockSeg (specFoldAux resolver f
              (rest.dropWhile (continuesRun (idOf cb))))).sum
            = segCount (specFoldAux resolver f (rest.dropWhile (continuesRun (idOf cb)))) :=
          rfl
        rw [hihr, ih (rest.dropWhile (continuesRun (idOf cb)))
          (by
            have hle := (List.dropWhile_sublist (l := rest) (continuesRun (idOf cb))).length_le
            simp at hlt
            omega)]
        have hsplit : (rest.takeWhile (continuesRun (idOf cb))).length
            + (rest.dropWhile (continuesRun (idOf cb))).length = rest.length := by
          rw [← List.length_append, List.takeWhile_append_dropWhile]
        simp only [blockSeg, List.length_map, List.length_cons]
        omega

/-- Every folded block's segments fit the buffer when every candidate's
actual length does. -/
theorem specFold_fits (resolver : HandlerResolver) (hb plen : Nat) :
    ∀ (fuel : Nat) (cbs : List CarBlock), cbs.length < fuel →
    (∀ cb ∈ cbs, hb + cbActualLen cb < plen) →
    ∀ b ∈ specFoldAux resolver fuel cbs, b.fitsBuf hb plen := by
  intro fuel
  induction fuel with
  | zero =>
    intro cbs h
    omega
  | succ f ih =>
    intro cbs hlt hcand b hmem
    cases cbs with
    | nil => simp [specFoldAux] at hmem
    | cons cb rest =>
      cases hraw : cb.rawBlock with
      | some data =>
        simp only [specFoldAux] at hmem
        rw [hraw] at hmem
        dsimp only at hmem
        rcases List.mem_cons.mp hmem with rfl | hmem2
        · have hc := hcand cb (by simp)
          simp only [cbActualLen, cbPayload, hraw] at hc
          show hb + _ < plen
          simp only [RawBlock.length]
          omega
        · exact ih rest (by simp at hlt; omega)
            (fun x hx => hcand x (List.mem_cons_of_mem _ hx)) b hmem2
      | none =>
        simp only [specFoldAux] at hmem
        rw [hraw] at hmem
        dsimp only at hmem
        rcases List.mem_cons.mp hmem with rfl | hmem2
        · intro m hm
          rcases List.mem_map.mp hm with ⟨x, hx, rfl⟩
          have hxraw : x.rawBlock = none := by
            rcases List.mem_cons.mp hx with rfl | hx2
            · exact hraw
            · have hp := List.mem_takeWhile_imp hx2
              simp only [continuesRun, Bool.and_eq_true, Option.isNone_iff_eq_none] at hp
              exact hp.1
          have hxmem : x ∈ cb :: rest := by
            rcases List.mem_cons.mp hx with rfl | hx2
            · exact List.mem_cons_self _ _
            · exact List.mem_cons_of_mem _ ((List.takeWhile_sublist _).subset hx2)
          have hc := hcand x hxmem
          simp only [cbActualLen, cbPayload, hxraw] at hc
          simp only [metaOf, ItemBlockMetadata.length]
          omega
        · refine ih (rest.dropWhile (continuesRun (idOf cb)))
            (by
              have hle := (List.dropWhile_sublist (l := rest)
                (continuesRun (idOf cb))).length_le
              simp at hlt
              omega)
            (fun x hx => hcand x
              (List.mem_cons_of_mem _ ((List.dropWhile_sublist _).subset hx)))
            b hmem2

/-- A nonempty plan folds to a nonempty block list. -/
theorem specFold_ne_nil (resolver : HandlerResolver) (fuel : Nat) (cb : CarBlock)
    (rest : List CarBlock) :
    specFoldAux resolver (fuel + 1) (cb :: rest) ≠ [] := by
  simp only [specFoldAux]
  cases cb.rawBlock <;> simp


/-- The spec's expected stream for a contiguous, aligned plan with honest
declared lengths has exactly the declared piece size. -/
theorem pieceBytes_length (resolver : HandlerResolver) (car : Car) (cbs : List CarBlock)
    (hne : cbs ≠ [])
    (hlen : ∀ cb ∈ cbs, cb.carBlockLength = cbActualLen cb)
    (hread : ∀ cb ∈ cbs, itemReadable resolver cb)
    (hcontig : List.Chain' contigStep cbs)
    (hhead : ∀ a ∈ cbs.head?, a.carOffset = car.header.length)
    (hfoot : ∀ a ∈ cbs.getLast?, a.carOffset + a.carBlockLength = car.fileSize) :
    (pieceBytes resolver car cbs).length = car.fileSize := by
  cases cbs with
  | nil => exact absurd rfl hne
  | cons a rest =>
    have hsum := chain_sum rest a hcontig
    have ha : a.carOffset = car.header.length := hhead a rfl
    have hfootEq : lastEnd (a :: rest) = car.fileSize := by
      cases hgl : (a :: rest).getLast? with
      | none =>
        rw [List.getLast?_eq_none_iff] at hgl
        exact List.noConfusion hgl
      | some e =>
        have he := hfoot e hgl
        simp [lastEnd, hgl, he]
    have hflat : ((a :: rest).map (candidateBytes resolver)).flatten.length
        = ((a :: rest).map CarBlock.carBlockLength).sum := by
      rw [List.length_flatten, List.map_map]
      congr 1
      apply List.map_congr_left
      intro x hx
      show (candidateBytes resolver x).length = x.carBlockLength
      rw [candidateBytes_length resolver x (hread x hx), ← hlen x hx]
    simp only [pieceBytes, List.length_append]
    rw [hflat, ← hfootEq, ← hsum, ha]

/-- **C1** (corrected) — for a plan accepted by `NewPieceReader` whose
candidates additionally have honest declared lengths, are readable, and
whose same-item neighbours agree on item and source and abut in the item,
driving the reader with a buffer larger than the declared piece size until
`io.EOF` emits exactly the header followed by each candidate's prefix,
identifier and payload bytes, totalling the declared piece size. (Without
the honesty hypothesis the code accepts plans that stream a different
number of bytes — see the counterexample.) -/
theorem stream_equals_plan (car : Car) (cbs : List CarBlock) (resolver : HandlerResolver)
    (pr : PieceReader) (tr : List Source) (plen : Nat)
    (hok : newPieceReader car cbs resolver = .ok (pr, tr))
    (hlen : ∀ cb ∈ cbs, cb.carBlockLength = cbActualLen cb)
    (hread : ∀ cb ∈ cbs, itemReadable resolver cb)
    (hrun : List.Chain' runStep cbs)
    (hbuf : car.fileSize < plen) :
    (readAll plen (cbs.length + 1) pr).out = pieceBytes resolver car cbs
    ∧ (readAll plen (cbs.length + 1) pr).stop = .eof
    ∧ (readAll plen (cbs.length + 1) pr).out.length = car.fileSize := by
  have hres : ∀ cb ∈ cbs, itemResolvable resolver cb := by
    intro cb hcb hraw
    obtain ⟨it, src, h, hi, hs, hh, _, _, _⟩ := hread cb hcb hraw
    exact ⟨it, src, h, hi, hs, hh⟩
  obtain ⟨hprEq, htrEq⟩ := newPieceReader_ok car cbs resolver pr tr hok hres
  obtain ⟨hne, hhead, hfoot, hsan⟩ := newPieceReader_accepts car cbs resolver pr tr hok
  have hcontig := sanitizeLoop_chain cbs hsan
  have hpieceLen := pieceBytes_length resolver car cbs hne hlen hread hcontig hhead hfoot
  cases cbs with
  | nil => exact absurd rfl hne
  | cons a rest =>
    have ha : a.carOffset = car.header.length := hhead a rfl
    have hsum := chain_sum rest a hcontig
    have hfootEq : lastEnd (a :: rest) = car.fileSize := by
      cases hgl : (a :: rest).getLast? with
      | none =>
        rw [List.getLast?_eq_none_iff] at hgl
        exact List.noConfusion hgl
      | some e =>
        have he := hfoot e hgl
        simp [lastEnd, hgl, he]
    rw [ha, hfootEq] at hsum
    have hcand : ∀ cb ∈ a :: rest, car.header.length + cbActualLen cb < plen := by
      intro cb hcb
      have h1 := chain_le_sum (a :: rest) cb hcb
      have h2 : cb.carBlockLength = cbActualLen cb := hlen cb hcb
      omega
    have hchainB := specFold_chain resolver ((a :: rest).length + 1) (a :: rest)
      car.header.length (by omega) hlen hread hcontig hrun ha
    have hfits := specFold_fits resolver car.header.length plen ((a :: rest).length + 1)
      (a :: rest) (by omega) hcand
    have hser := specFold_serialize resolver ((a :: rest).length + 1) (a :: rest)
      (by omega) hread hrun
    have hseg := specFold_segCount resolver ((a :: rest).length + 1) (a :: rest) (by omega)
    have hneb : specFoldAux resolver ((a :: rest).length + 1) (a :: rest) ≠ [] :=
      specFold_ne_nil resolver (a :: rest).length a rest
    have hpr2 : pr = boundary (specFoldAux resolver ((a :: rest).length + 1) (a :: rest))
        car.header 0 0 := by
      rw [hprEq]
      rfl
    have hfuel : (a :: rest).length + 1
        = segCount (specFoldAux resolver ((a :: rest).length + 1) (a :: rest)) + 1 := by
      rw [hseg]
    rw [hfuel, hpr2]
    obtain ⟨hout, hstop⟩ := readAll_full plen
      (specFoldAux resolver ((a :: rest).length + 1) (a :: rest)) car.header
      hneb hchainB hfits
    refine ⟨?_, hstop, ?_⟩
    · rw [hout, hser]
      rfl
    · rw [hout, hser]
      exact hpieceLen

/-- **C1** counterexample — `NewPieceReader` accepts the plan whose single
inline candidate declares `CarBlockLength` 5 but serializes 3 bytes (prefix
`[0]`, identifier `[7]`, payload `[9]`); driving the reader to `io.EOF`
yields 4 bytes, not the declared piece size 6. The code never compares a
candidate's declared length with the bytes it actually serializes. -/
theorem declared_length_not_validated :
    newPieceReader badLenCar [badLenCB] nullResolver = .ok (badLenPR, []) ∧
    (readAll 7 2 badLenPR).stop = .eof ∧
    (readAll 7 2 badLenPR).out = [1, 0, 7, 9] ∧
    (readAll 7 2 badLenPR).out.length = 4 ∧
    badLenCar.fileSize = 6 :=
  ⟨rfl, rfl, rfl, rfl, rfl⟩

/-- Witness for `stream_equals_plan`: the two-candidate item run streams
`[99] ++ [3, 9, 1, 2] ++ [3, 8, 3, 4]`, 9 bytes, and reports EOF. -/
theorem stream_equals_plan_witness :
    newPieceReader itemCar [itemCB1, itemCB2] resolverA = .ok (itemPR, [sourceA]) ∧
    (readAll 10 ([itemCB1, itemCB2].length + 1) itemPR).out
      = pieceBytes resolverA itemCar [itemCB1, itemCB2] ∧
    (readAll 10 ([itemCB1, itemCB2].length + 1) itemPR).stop = .eof ∧
    (readAll 10 ([itemCB1, itemCB2].length + 1) itemPR).out.length = itemCar.fileSize := by
  have h := stream_equals_plan itemCar [itemCB1, itemCB2] resolverA itemPR [sourceA] 10 rfl
    (by
      intro cb hcb
      simp only [List.mem_cons, List.not_mem_nil, or_false] at hcb
      rcases hcb with rfl | rfl <;> rfl)
    (by
      intro cb hcb
      simp only [List.mem_cons, List.not_mem_nil, or_false] at hcb
      rcases hcb with rfl | rfl <;>
        exact fun hraw =>
          ⟨itemA, sourceA, handlerA, rfl, rfl, rfl, by decide, by decide, by decide⟩)
    (List.chain'_cons.mpr ⟨fun _ _ _ => ⟨rfl, rfl, rfl⟩, List.chain'_singleton _⟩)
    (by decide)
  exact ⟨rfl, h.1, h.2.1, h.2.2⟩

end PieceStore
